import Mathlib

/-!
# Verification of the fixed-step LMDE integration engine

A shallow embedding of `qiskit_dynamics/solvers/fixed_step_solvers.py` together with
proofs of the specified properties of its time-grid builder, step-rule library,
sequential integrator and parallel propagator composer.

Conventions of the embedding:

* All grid arithmetic (`get_fixed_step_sizes` and friends) is carried out exactly over `ℚ`,
  the exact-arithmetic idealisation of the floating-point arithmetic of the source.
* The integration templates are polymorphic in the time type and the state type, exactly as
  the Python templates are generic in the objects flowing through them.
* The step rules of the Magnus family carry irrational node constants (`√3`, `√15`), so the
  step-rule layer works with times in `ℝ` and matrices over `ℂ`; the solver entry points glue
  the rational grid to the real-time step rules by the exact cast `ℚ → ℝ`.
* Fallible code paths (the `magnus_order` validation) are value-level: `Option`-returning
  functions, `none` standing for the raised `QiskitError`.
-/

open Matrix

/-! ## Time grid construction (`get_fixed_step_sizes`, lines 616-653) -/

/-- Modelled from the spec: `merge_t_args` (defined in `solver_utils.py`, which is not among
the provided sources) merges the `t_span` endpoints with the optional `t_eval` points into a
single breakpoint list `t_0, …, t_m`; the validation it performs (sortedness, in-range,
deduplication against the endpoints) is assumed to have succeeded. -/
def merge_t_args (t_span : ℚ × ℚ) (t_eval : Option (List ℚ)) : List ℚ :=
  match t_eval with
  | none => [t_span.1, t_span.2]
  | some ts => t_span.1 :: ts ++ [t_span.2]

/-- The per-interval step count of `get_fixed_step_sizes` (lines 639-648): numpy's
`astype(int)` truncates the non-negative quotient `|delta / max_dt|`, i.e. takes its floor;
a zero count is raised to one, and a count whose per-step magnitude exceeds `max_dt` by more
than the relative tolerance `1e-15` is incremented by one. -/
def nStepsFor (max_dt delta : ℚ) : ℕ :=
  let n0 : ℕ := ⌊|delta / max_dt|⌋.toNat
  if n0 = 0 then 1
  else if |delta / (n0 : ℚ)| / max_dt > 1 + 1 / 10 ^ 15 then n0 + 1
  else n0

/-- `get_fixed_step_sizes` (lines 616-653): merged breakpoint list, per-interval step sizes
`h_i = delta_i / n_i`, and per-interval step counts. -/
def get_fixed_step_sizes (t_span : ℚ × ℚ) (t_eval : Option (List ℚ)) (max_dt : ℚ) :
    List ℚ × List ℚ × List ℕ :=
  let t_list := merge_t_args t_span t_eval
  let delta_t_list := List.zipWith (fun a b => b - a) t_list t_list.tail
  let n_steps_list := delta_t_list.map (nStepsFor max_dt)
  let h_list := List.zipWith (fun d (n : ℕ) => d / (n : ℚ)) delta_t_list n_steps_list
  (t_list, h_list, n_steps_list)

/-- The step-count rule exactly as the specification words it: `ceil(|delta| / max_dt)`
floored to at least `1`, then incremented by one when the per-step magnitude still exceeds
`max_dt` by more than the relative tolerance `1e-15`.  Stated only for comparison against the
source's `nStepsFor`. -/
def specCeilStepCount (max_dt delta : ℚ) : ℕ :=
  let n0 : ℕ := max ⌈|delta / max_dt|⌉.toNat 1
  if |delta / (n0 : ℚ)| / max_dt > 1 + 1 / 10 ^ 15 then n0 + 1 else n0

lemma nStepsFor_eq (max_dt delta : ℚ) :
    nStepsFor max_dt delta =
      if ⌊|delta / max_dt|⌋.toNat = 0 then 1
      else if |delta / ((⌊|delta / max_dt|⌋.toNat : ℕ) : ℚ)| / max_dt
          > 1 + 1 / 10 ^ 15 then
        ⌊|delta / max_dt|⌋.toNat + 1
      else ⌊|delta / max_dt|⌋.toNat := rfl

lemma nStepsFor_pos (max_dt delta : ℚ) : 1 ≤ nStepsFor max_dt delta := by
  rw [nStepsFor_eq]
  split
  · exact le_refl 1
  · split
    · exact Nat.le_add_left 1 _
    · exact Nat.one_le_iff_ne_zero.mpr (by assumption)

section GridLemmas

variable {max_dt delta : ℚ}

lemma nStepsFor_n0_cast (delta max_dt : ℚ) :
    ((⌊|delta / max_dt|⌋.toNat : ℤ)) = ⌊|delta / max_dt|⌋ :=
  Int.toNat_of_nonneg (Int.floor_nonneg.2 (abs_nonneg _))

/-- Core grid-correctness facts for a single signed interval length `delta`. -/
lemma nStepsFor_spec (hmax : 0 < max_dt) (delta : ℚ) :
    1 ≤ nStepsFor max_dt delta ∧
    delta = (nStepsFor max_dt delta : ℚ) * (delta / (nStepsFor max_dt delta : ℚ)) ∧
    |delta / (nStepsFor max_dt delta : ℚ)| ≤ max_dt * (1 + 1 / 10 ^ 12) ∧
    (0 < delta → 0 < delta / (nStepsFor max_dt delta : ℚ)) ∧
    (delta < 0 → delta / (nStepsFor max_dt delta : ℚ) < 0) := by
  have hn1 : 1 ≤ nStepsFor max_dt delta := nStepsFor_pos max_dt delta
  have hnQ : (0 : ℚ) < (nStepsFor max_dt delta : ℚ) := by
    exact_mod_cast Nat.lt_of_lt_of_le Nat.zero_lt_one hn1
  refine ⟨hn1, ?_, ?_, fun h => div_pos h hnQ, fun h => div_neg_of_neg_of_pos h hnQ⟩
  · rw [mul_div_cancel₀ _ (ne_of_gt hnQ)]
  · -- the `|h| ≤ max_dt * (1 + 1e-12)` bound, by cases on the branch taken
    have habs : |delta / max_dt| = |delta| / max_dt := by
      rw [abs_div, abs_of_pos hmax]
    have hb : max_dt ≤ max_dt * (1 + 1 / 10 ^ 12) :=
      le_mul_of_one_le_right hmax.le (by norm_num)
    rw [nStepsFor_eq]
    set n0 : ℕ := ⌊|delta / max_dt|⌋.toNat with hn0
    have hcast : ((n0 : ℤ)) = ⌊|delta / max_dt|⌋ := nStepsFor_n0_cast delta max_dt
    split
    · -- n0 = 0 : a single step, |delta| < max_dt
      rename_i h0
      have hflr : ⌊|delta / max_dt|⌋ = 0 := by rw [← hcast, h0]; rfl
      have hlt : |delta / max_dt| < 1 := by
        have := Int.lt_floor_add_one |delta / max_dt|
        rw [hflr] at this; simpa using this
      rw [habs, div_lt_one hmax] at hlt
      simpa using le_trans hlt.le hb
    · rename_i h0
      have hn0pos : (0 : ℚ) < (n0 : ℚ) := by
        exact_mod_cast Nat.pos_of_ne_zero h0
      split
      · -- increment branch : n = n0 + 1, and |delta| / max_dt < n0 + 1 by the floor bound
        have hlt : |delta / max_dt| < (n0 : ℚ) + 1 := by
          have := Int.lt_floor_add_one |delta / max_dt|
          rw [← hcast] at this; exact_mod_cast this
        rw [habs, div_lt_iff hmax] at hlt
        have hstep : |delta| / ((n0 : ℚ) + 1) < max_dt := by
          rw [div_lt_iff (by positivity)]
          calc |delta| < ((n0 : ℚ) + 1) * max_dt := hlt
          _ = max_dt * ((n0 : ℚ) + 1) := mul_comm _ _
        have : |delta / (((n0 + 1 : ℕ)) : ℚ)| = |delta| / ((n0 : ℚ) + 1) := by
          rw [abs_div]
          congr 1
          · push_cast
            rw [abs_of_pos (by positivity)]
        rw [this]
        exact le_trans hstep.le hb
      · -- no-increment branch : the tolerance check bounds |delta / n0| directly
        rename_i htol
        have h1 : |delta / (n0 : ℚ)| / max_dt ≤ 1 + 1 / 10 ^ 15 := not_lt.1 htol
        have h2 : |delta / (n0 : ℚ)| ≤ max_dt * (1 + 1 / 10 ^ 15) := by
          rw [div_le_iff hmax] at h1
          calc |delta / (n0 : ℚ)| ≤ (1 + 1 / 10 ^ 15) * max_dt := h1
          _ = max_dt * (1 + 1 / 10 ^ 15) := mul_comm _ _
        refine le_trans h2 ?_
        have : (1 : ℚ) + 1 / 10 ^ 15 ≤ 1 + 1 / 10 ^ 12 := by norm_num
        exact mul_le_mul_of_nonneg_left this hmax.le

end GridLemmas

lemma zipWith_map_self {A B C : Type*} (l : List A) (f : A → B) (g : A → B → C) :
    List.zipWith g l (l.map f) = l.map (fun a => g a (f a)) := by
  induction l with
  | nil => rfl
  | cons a tl ih => simp [ih]

lemma zip_map_self {A B C : Type*} (l : List A) (f : A → B) (g : A → C) :
    List.zip l (List.zip (l.map f) (l.map g)) = l.map (fun a => (a, f a, g a)) := by
  induction l with
  | nil => rfl
  | cons a tl ih => simp [ih]

/-- The zipped (delta, h, n) data of `get_fixed_step_sizes` is pointwise determined by the
interval length alone. -/
lemma grid_zip_repr (t_span : ℚ × ℚ) (t_eval : Option (List ℚ)) (max_dt : ℚ) :
    List.zip
        (List.zipWith (fun a b => b - a) (get_fixed_step_sizes t_span t_eval max_dt).1
          (get_fixed_step_sizes t_span t_eval max_dt).1.tail)
        (List.zip (get_fixed_step_sizes t_span t_eval max_dt).2.1
          (get_fixed_step_sizes t_span t_eval max_dt).2.2) =
      (List.zipWith (fun a b => b - a) (merge_t_args t_span t_eval)
          (merge_t_args t_span t_eval).tail).map
        (fun d =>
          (d, d / (nStepsFor max_dt d : ℚ), nStepsFor max_dt d)) := by
  have h1 : (get_fixed_step_sizes t_span t_eval max_dt).1 = merge_t_args t_span t_eval := rfl
  have h2 : (get_fixed_step_sizes t_span t_eval max_dt).2.2 =
      (List.zipWith (fun a b => b - a) (merge_t_args t_span t_eval)
        (merge_t_args t_span t_eval).tail).map (nStepsFor max_dt) := rfl
  have h3 : (get_fixed_step_sizes t_span t_eval max_dt).2.1 =
      List.zipWith (fun d (n : ℕ) => d / (n : ℚ))
        (List.zipWith (fun a b => b - a) (merge_t_args t_span t_eval)
          (merge_t_args t_span t_eval).tail)
        ((List.zipWith (fun a b => b - a) (merge_t_args t_span t_eval)
          (merge_t_args t_span t_eval).tail).map (nStepsFor max_dt)) := rfl
  rw [h1, h2, h3, zipWith_map_self, zip_map_self]

/-- C2: Grid correctness.  For every `t_span`, `t_eval` and positive `max_dt`, every
consecutive breakpoint pair of the grid built by `get_fixed_step_sizes` satisfies
`n_i ≥ 1`, `t_{i+1} - t_i = n_i · h_i` exactly, `|h_i| ≤ max_dt · (1 + 1e-12)`, and `h_i`
carries the sign of `t_{i+1} - t_i` (so backward integration is supported). -/
theorem grid_correctness (t_span : ℚ × ℚ) (t_eval : Option (List ℚ)) (max_dt : ℚ)
    (hmax : 0 < max_dt) :
    ∀ p ∈ List.zip
        (List.zipWith (fun a b => b - a) (get_fixed_step_sizes t_span t_eval max_dt).1
          (get_fixed_step_sizes t_span t_eval max_dt).1.tail)
        (List.zip (get_fixed_step_sizes t_span t_eval max_dt).2.1
          (get_fixed_step_sizes t_span t_eval max_dt).2.2),
      1 ≤ p.2.2 ∧ p.1 = (p.2.2 : ℚ) * p.2.1 ∧
      |p.2.1| ≤ max_dt * (1 + 1 / 10 ^ 12) ∧
      (0 < p.1 → 0 < p.2.1) ∧ (p.1 < 0 → p.2.1 < 0) := by
  intro p hp
  rw [grid_zip_repr] at hp
  obtain ⟨d, _, rfl⟩ := List.mem_map.1 hp
  obtain ⟨h1, h2, h3, h4, h5⟩ := nStepsFor_spec hmax d
  exact ⟨h1, h2, h3, h4, h5⟩

/-- Witness for C2 at the spec's concrete scenario `t_span = (0,1)`,
`t_eval = [1/4, 1/2, 3/4]`, `max_dt = 3/10`. -/
theorem grid_correctness_witness :
    0 < (3 / 10 : ℚ) ∧
      ∀ p ∈ List.zip
          (List.zipWith (fun a b => b - a)
            (get_fixed_step_sizes (0, 1) (some [1/4, 1/2, 3/4]) (3/10)).1
            (get_fixed_step_sizes (0, 1) (some [1/4, 1/2, 3/4]) (3/10)).1.tail)
          (List.zip (get_fixed_step_sizes (0, 1) (some [1/4, 1/2, 3/4]) (3/10)).2.1
            (get_fixed_step_sizes (0, 1) (some [1/4, 1/2, 3/4]) (3/10)).2.2),
        1 ≤ p.2.2 ∧ p.1 = (p.2.2 : ℚ) * p.2.1 ∧
        |p.2.1| ≤ (3 / 10 : ℚ) * (1 + 1 / 10 ^ 12) ∧
        (0 < p.1 → 0 < p.2.1) ∧ (p.1 < 0 → p.2.1 < 0) :=
  ⟨by norm_num, grid_correctness (0, 1) (some [1/4, 1/2, 3/4]) (3/10) (by norm_num)⟩

/-! ## C3: the step-count rule -/

lemma specCeilStepCount_eq (max_dt delta : ℚ) :
    specCeilStepCount max_dt delta =
      if |delta / ((max ⌈|delta / max_dt|⌉.toNat 1 : ℕ) : ℚ)| / max_dt > 1 + 1 / 10 ^ 15 then
        max ⌈|delta / max_dt|⌉.toNat 1 + 1
      else max ⌈|delta / max_dt|⌉.toNat 1 := rfl

/-- C3 (counterexample): at `t_span = (0, 2 + 1e-16)`, `max_dt = 1`, the interval quotient
`|delta| / max_dt = 2 + 1e-16` lies just above the integer `2`, within the relative
tolerance `1e-15`.  The source truncates (`astype(int)`) and keeps `n = 2`, while the
claimed rule `ceil(|delta| / max_dt)` (floored to at least one, incremented only past the
tolerance) gives `n = 3`. -/
theorem step_count_rule_counterexample :
    (get_fixed_step_sizes (0, 2 + 1 / 10 ^ 16) none 1).2.2 = [2] ∧
    specCeilStepCount 1 ((2 + 1 / 10 ^ 16 : ℚ) - 0) = 3 ∧
    ⌈|((2 + 1 / 10 ^ 16 : ℚ) - 0) / 1|⌉ = 3 ∧ (2 : ℕ) ≠ 3 := by
  have hd : ((2 + 1 / 10 ^ 16 : ℚ) - 0) = 2 + 1 / 10 ^ 16 := by norm_num
  have hx : |(2 + 1 / 10 ^ 16 : ℚ) / 1| = 2 + 1 / 10 ^ 16 := by
    rw [abs_of_pos (by norm_num)]; norm_num
  have habs : |(2 + 1 / 10 ^ 16 : ℚ)| = 2 + 1 / 10 ^ 16 := abs_of_pos (by norm_num)
  have hfl : (⌊(2 + 1 / 10 ^ 16 : ℚ)⌋) = 2 := by norm_num
  have hcl : (⌈(2 + 1 / 10 ^ 16 : ℚ)⌉) = 3 := by
    rw [Int.ceil_eq_iff] <;> norm_num
  refine ⟨?_, ?_, ?_, by norm_num⟩
  · have e1 : (get_fixed_step_sizes (0, 2 + 1 / 10 ^ 16) none 1).2.2
        = [nStepsFor 1 ((2 + 1 / 10 ^ 16 : ℚ) - 0)] := rfl
    rw [e1, hd]
    have e2 : nStepsFor 1 (2 + 1 / 10 ^ 16 : ℚ) = 2 := by
      have hcond2 : ¬ (|(2 + 1 / 10 ^ 16 : ℚ) / ((2 : ℕ) : ℚ)| / 1 > 1 + 1 / 10 ^ 15) := by
        have habs2 : |(2 + 1 / 10 ^ 16 : ℚ) / ((2 : ℕ) : ℚ)| = (2 + 1 / 10 ^ 16) / 2 := by
          rw [abs_of_pos] <;> norm_num
        rw [habs2]
        norm_num
      rw [nStepsFor_eq]
      rw [show (2 + 1 / 10 ^ 16 : ℚ) / 1 = 2 + 1 / 10 ^ 16 by norm_num, habs, hfl,
        show ((2 : ℤ).toNat) = 2 from rfl]
      rw [if_neg (by norm_num), if_neg hcond2]
    rw [e2]
  · have hcond3 : ¬ (|(2 + 1 / 10 ^ 16 : ℚ) / ((max (3 : ℕ) 1 : ℕ) : ℚ)| / 1
        > 1 + 1 / 10 ^ 15) := by
      have habs3 : |(2 + 1 / 10 ^ 16 : ℚ) / ((max (3 : ℕ) 1 : ℕ) : ℚ)|
          = (2 + 1 / 10 ^ 16) / 3 := by
        rw [show (max (3 : ℕ) 1 : ℕ) = 3 from rfl, abs_of_pos] <;> norm_num
      rw [habs3]
      norm_num
    rw [hd, specCeilStepCount_eq]
    rw [show (2 + 1 / 10 ^ 16 : ℚ) / 1 = 2 + 1 / 10 ^ 16 by norm_num, habs, hcl,
      show ((3 : ℤ).toNat) = 3 from rfl]
    rw [if_neg hcond3]
    rfl
  · rw [hd, hx, hcl]

lemma zip_map_self' {A B : Type*} (l : List A) (f : A → B) :
    List.zip l (l.map f) = l.map (fun a => (a, f a)) := by
  induction l with
  | nil => rfl
  | cons a tl ih => simp [ih]

/-- What the truncation-based step count actually computes, relative to the ceiling rule:
outside a relative-`1e-15` window above each positive integer the two agree; inside the
window the code keeps the floor. -/
lemma nStepsFor_amended {max_dt : ℚ} (hmax : 0 < max_dt) (delta : ℚ) :
    (1 ≤ ⌊|delta / max_dt|⌋ → (⌊|delta / max_dt|⌋ : ℚ) < |delta / max_dt| →
      |delta / max_dt| ≤ (⌊|delta / max_dt|⌋ : ℚ) * (1 + 1 / 10 ^ 15) →
      (nStepsFor max_dt delta : ℤ) = ⌊|delta / max_dt|⌋) ∧
    ((|delta / max_dt| ≤ 1 ∨ (⌊|delta / max_dt|⌋ : ℚ) = |delta / max_dt| ∨
        (⌊|delta / max_dt|⌋ : ℚ) * (1 + 1 / 10 ^ 15) < |delta / max_dt|) →
      (nStepsFor max_dt delta : ℤ) = max ⌈|delta / max_dt|⌉ 1) := by
  set q : ℚ := |delta / max_dt| with hqdef
  have hq0 : 0 ≤ q := abs_nonneg _
  have hcast : ((⌊q⌋.toNat : ℤ)) = ⌊q⌋ := nStepsFor_n0_cast delta max_dt
  have hcastQ : ((⌊q⌋.toNat : ℕ) : ℚ) = ((⌊q⌋ : ℤ) : ℚ) := by exact_mod_cast hcast
  -- the `elif` test of the source, rephrased as a bound on `q`
  have habsq : |delta| / max_dt = q := by
    rw [hqdef, abs_div, abs_of_pos hmax]
  have helif : ∀ m : ℕ, 0 < m →
      ((|delta / (m : ℚ)| / max_dt > 1 + 1 / 10 ^ 15) ↔ (m : ℚ) * (1 + 1 / 10 ^ 15) < q) := by
    intro m hm
    have hmQ : (0 : ℚ) < (m : ℚ) := by exact_mod_cast hm
    have h1 : |delta / (m : ℚ)| / max_dt = q / (m : ℚ) := by
      rw [abs_div, Nat.abs_cast, div_right_comm, habsq]
    rw [h1, gt_iff_lt, lt_div_iff hmQ, mul_comm]
  constructor
  · -- inside the window the code keeps `n = ⌊q⌋`
    intro h1 h2 h3
    have h0 : ¬ (⌊q⌋.toNat = 0) := by omega
    have hnot : ¬ (|delta / ((⌊q⌋.toNat : ℕ) : ℚ)| / max_dt > 1 + 1 / 10 ^ 15) := by
      rw [helif _ (by omega), hcastQ]
      exact not_lt.2 h3
    rw [nStepsFor_eq, ← hqdef, if_neg h0, if_neg hnot, hcast]
  · -- outside the window the code computes the ceiling rule
    rintro (hle | hint | hgt)
    · -- `q ≤ 1` : one step either way
      have hceil1 : ⌈q⌉ ≤ 1 := Int.ceil_le.2 (by exact_mod_cast hle)
      rcases lt_or_eq_of_le hle with hlt | heq
      · have h0 : ⌊q⌋.toNat = 0 := by
          have hf1 : ⌊q⌋ < 1 := Int.floor_lt.2 (by exact_mod_cast hlt)
          have hf0 : 0 ≤ ⌊q⌋ := Int.floor_nonneg.2 hq0
          omega
        rw [nStepsFor_eq, ← hqdef, if_pos h0]
        omega
      · -- `q = 1` exactly
        have h0 : ⌊q⌋.toNat = 1 := by
          have : ⌊q⌋ = 1 := by rw [heq]; exact Int.floor_one
          omega
        have hc1 : ⌈q⌉ = 1 := by rw [heq]; exact Int.ceil_one
        have hnot : ¬ (|delta / ((⌊q⌋.toNat : ℕ) : ℚ)| / max_dt > 1 + 1 / 10 ^ 15) := by
          rw [helif _ (by omega), h0]
          push_cast
          rw [heq]
          norm_num
        rw [nStepsFor_eq, ← hqdef, if_neg (by omega), if_neg hnot]
        omega
    · -- `q` an integer : floor equals ceiling
      have hceil : ⌈q⌉ = ⌊q⌋ := by
        have h := @Int.ceil_intCast ℚ _ _ ⌊q⌋
        rw [hint] at h
        exact h
      by_cases h0 : ⌊q⌋.toNat = 0
      · have hfl0 : ⌊q⌋ = 0 := by
          have := Int.floor_nonneg.2 hq0
          omega
        rw [nStepsFor_eq, ← hqdef, if_pos h0]
        omega
      · have hn0pos : 0 < ⌊q⌋.toNat := Nat.pos_of_ne_zero h0
        have hnot : ¬ (|delta / ((⌊q⌋.toNat : ℕ) : ℚ)| / max_dt > 1 + 1 / 10 ^ 15) := by
          rw [helif _ hn0pos, hcastQ, hint]
          exact not_lt.2 (le_mul_of_one_le_right hq0 (by norm_num))
        rw [nStepsFor_eq, ← hqdef, if_neg h0, if_neg hnot]
        omega
    · -- strictly past the tolerance window : the code increments up to the ceiling
      have hflt : (⌊q⌋ : ℚ) < q := by
        have h1 : (⌊q⌋ : ℚ) ≤ (⌊q⌋ : ℚ) * (1 + 1 / 10 ^ 15) := by
          have hfl0 : (0 : ℚ) ≤ (⌊q⌋ : ℚ) := by exact_mod_cast Int.floor_nonneg.2 hq0
          exact le_mul_of_one_le_right hfl0 (by norm_num)
        exact lt_of_le_of_lt h1 hgt
      have hceil : ⌈q⌉ = ⌊q⌋ + 1 := by
        have h1 : ⌈q⌉ ≤ ⌊q⌋ + 1 := Int.ceil_le_floor_add_one q
        have h2 : ⌊q⌋ < ⌈q⌉ := by
          have : (⌊q⌋ : ℚ) < (⌈q⌉ : ℚ) := lt_of_lt_of_le hflt (Int.le_ceil q)
          exact_mod_cast this
        omega
      by_cases h0 : ⌊q⌋.toNat = 0
      · have hfl0 : ⌊q⌋ = 0 := by
          have := Int.floor_nonneg.2 hq0
          omega
        rw [nStepsFor_eq, ← hqdef, if_pos h0]
        omega
      · have hn0pos : 0 < ⌊q⌋.toNat := Nat.pos_of_ne_zero h0
        have hyes : |delta / ((⌊q⌋.toNat : ℕ) : ℚ)| / max_dt > 1 + 1 / 10 ^ 15 := by
          rw [helif _ hn0pos, hcastQ]
          exact hgt
        rw [nStepsFor_eq, ← hqdef, if_neg h0, if_pos hyes]
        omega

/-- C3 (amended): for every positive `max_dt`, the per-interval step count of
`get_fixed_step_sizes` equals `max(ceil(|delta| / max_dt), 1)` whenever `|delta| / max_dt`
is at most one, an exact integer, or exceeds its floor by more than the relative tolerance
`1e-15`; when `|delta| / max_dt` lies within relative `1e-15` above an integer `f ≥ 1` the
code instead keeps the truncated count `f` (numpy `astype(int)` truncates rather than takes
the ceiling; the increment happens only when `|delta| / n` exceeds `max_dt` past the
tolerance). -/
theorem step_count_rule_amended (t_span : ℚ × ℚ) (t_eval : Option (List ℚ)) (max_dt : ℚ)
    (hmax : 0 < max_dt) :
    ∀ p ∈ List.zip
        (List.zipWith (fun a b => b - a) (get_fixed_step_sizes t_span t_eval max_dt).1
          (get_fixed_step_sizes t_span t_eval max_dt).1.tail)
        (get_fixed_step_sizes t_span t_eval max_dt).2.2,
      (1 ≤ ⌊|p.1 / max_dt|⌋ → (⌊|p.1 / max_dt|⌋ : ℚ) < |p.1 / max_dt| →
        |p.1 / max_dt| ≤ (⌊|p.1 / max_dt|⌋ : ℚ) * (1 + 1 / 10 ^ 15) →
        (p.2 : ℤ) = ⌊|p.1 / max_dt|⌋) ∧
      ((|p.1 / max_dt| ≤ 1 ∨ (⌊|p.1 / max_dt|⌋ : ℚ) = |p.1 / max_dt| ∨
          (⌊|p.1 / max_dt|⌋ : ℚ) * (1 + 1 / 10 ^ 15) < |p.1 / max_dt|) →
        (p.2 : ℤ) = max ⌈|p.1 / max_dt|⌉ 1) := by
  intro p hp
  have h1 : (get_fixed_step_sizes t_span t_eval max_dt).1 = merge_t_args t_span t_eval := rfl
  have h2 : (get_fixed_step_sizes t_span t_eval max_dt).2.2 =
      (List.zipWith (fun a b => b - a) (merge_t_args t_span t_eval)
        (merge_t_args t_span t_eval).tail).map (nStepsFor max_dt) := rfl
  rw [h1, h2, zip_map_self'] at hp
  obtain ⟨d, _, rfl⟩ := List.mem_map.1 hp
  exact nStepsFor_amended hmax d

/-- Witness for the amended C3 at `t_span = (0, 5/2)`, `max_dt = 1`. -/
theorem step_count_rule_amended_witness :
    0 < (1 : ℚ) ∧
      ∀ p ∈ List.zip
          (List.zipWith (fun a b => b - a) (get_fixed_step_sizes (0, 5/2) none 1).1
            (get_fixed_step_sizes (0, 5/2) none 1).1.tail)
          (get_fixed_step_sizes (0, 5/2) none 1).2.2,
        (1 ≤ ⌊|p.1 / 1|⌋ → (⌊|p.1 / 1|⌋ : ℚ) < |p.1 / 1| →
          |p.1 / 1| ≤ (⌊|p.1 / 1|⌋ : ℚ) * (1 + 1 / 10 ^ 15) →
          (p.2 : ℤ) = ⌊|p.1 / 1|⌋) ∧
        ((|p.1 / 1| ≤ 1 ∨ (⌊|p.1 / 1|⌋ : ℚ) = |p.1 / 1| ∨
            (⌊|p.1 / 1|⌋ : ℚ) * (1 + 1 / 10 ^ 15) < |p.1 / 1|) →
          (p.2 : ℤ) = max ⌈|p.1 / 1|⌉ 1) :=
  ⟨by norm_num, step_count_rule_amended (0, 5/2) none 1 (by norm_num)⟩

/-! ## Integration templates

The sequential template (`fixed_step_solver_template`, lines 406-459), its JAX control-flow
variant (`fixed_step_solver_template_jax`, lines 462-521) and the parallel LMDE composer
(`fixed_step_lmde_solver_parallel_template_jax`, lines 524-613).  Each is split into a
"core" operating on an explicit grid triple `(t_list, h_list, n_steps_list)` and the entry
points apply the core to the grid built by `get_fixed_step_sizes`, exactly as the source
does.  The templates are polymorphic in the time type `T`, the rhs-callable type `R` and the
state type `α`. -/

/-- Python's `zip` over three lists (truncating to the shortest). -/
def zip3 {A B C : Type*} (as : List A) (bs : List B) (cs : List C) : List (A × B × C) :=
  as.zip (bs.zip cs)

/-- The inner loop of `fixed_step_solver_template` (lines 450-453): apply `take_step`
`n` times with fixed step size `h`, advancing the inner time by `h` each iteration. -/
def innerSteps {T R α : Type*} [Add T] (take_step : R → T → α → T → α) (rhs_func : R)
    (h : T) : ℕ → T → α → α
  | 0, _, y => y
  | n + 1, t, y => innerSteps take_step rhs_func h n (t + h) (take_step rhs_func t y h)

/-- The outer loop of `fixed_step_solver_template` (lines 447-454): one trajectory value per
breakpoint interval, threading the running state. -/
def seqIntervals {T R α : Type*} [Add T] (take_step : R → T → α → T → α) (rhs_func : R) :
    List (T × T × ℕ) → α → List α
  | [], _ => []
  | (t, h, n) :: rest, y =>
    let y' := innerSteps take_step rhs_func h n t y
    y' :: seqIntervals take_step rhs_func rest y'

/-- `fixed_step_solver_template` on an explicit grid: the trajectory `ys`, with `y0`
prepended at `t_0`. -/
def fixed_step_solver_template_core {T R α : Type*} [Add T]
    (take_step : R → T → α → T → α) (rhs_func : R)
    (t_list h_list : List T) (n_steps_list : List ℕ) (y0 : α) : List α :=
  y0 :: seqIntervals take_step rhs_func (zip3 t_list h_list n_steps_list) y0

/-- `fixed_step_solver_template` (lines 406-459) on rational time. -/
def fixed_step_solver_template {R α : Type*} (take_step : R → ℚ → α → ℚ → α) (rhs_func : R)
    (t_span : ℚ × ℚ) (y0 : α) (max_dt : ℚ) (t_eval : Option (List ℚ)) : List α :=
  let gr := get_fixed_step_sizes t_span t_eval max_dt
  fixed_step_solver_template_core take_step rhs_func gr.1 gr.2.1 gr.2.2 y0

/-- The padded inner scan of `fixed_step_solver_template_jax` (lines 501-507): iterate
`remaining` times starting at loop index `idx`; an iteration applies `take_step` only while
`idx < n_steps` (the `cond` gate) but advances the inner time unconditionally. -/
def jaxSteps {T R α : Type*} [Add T] (take_step : R → T → α → T → α) (rhs_func : R)
    (h : T) (n_steps : ℕ) : ℕ → ℕ → T → α → α
  | _, 0, _, y => y
  | idx, r + 1, t, y =>
    jaxSteps take_step rhs_func h n_steps (idx + 1) r (t + h)
      (if idx < n_steps then take_step rhs_func t y h else y)

/-- The outer scan of `fixed_step_solver_template_jax` (lines 497-515): every interval is
padded to `max_steps` inner iterations. -/
def seqIntervalsJax {T R α : Type*} [Add T] (take_step : R → T → α → T → α) (rhs_func : R)
    (max_steps : ℕ) : List (T × T × ℕ) → α → List α
  | [], _ => []
  | (t, h, n) :: rest, y =>
    let y' := jaxSteps take_step rhs_func h n 0 max_steps t y
    y' :: seqIntervalsJax take_step rhs_func max_steps rest y'

/-- `fixed_step_solver_template_jax` on an explicit grid: scans over
`zip(t_list[:-1], h_list, n_steps_list)` with every interval padded to
`max_steps = n_steps_list.max()`, then prepends `y0`. -/
def fixed_step_solver_template_jax_core {T R α : Type*} [Add T]
    (take_step : R → T → α → T → α) (rhs_func : R)
    (t_list h_list : List T) (n_steps_list : List ℕ) (y0 : α) : List α :=
  let max_steps := n_steps_list.foldr max 0
  y0 :: seqIntervalsJax take_step rhs_func max_steps
    (zip3 t_list.dropLast h_list n_steps_list) y0

/-! ### Parallel LMDE composer -/

/-- The flattened stepping points of the parallel composer (lines 580-586): for each
interval, the sub-step times `t + h·k`, `k < n`, each paired with its step size `h`. -/
def stepPoints {T : Type*} [CommRing T] (triples : List (T × T × ℕ)) : List (T × T) :=
  triples.flatMap
    (fun x => (List.range x.2.2).map (fun (k : ℕ) => (x.1 + x.2.1 * (k : T), x.2.1)))

/-- `t_list_locations` (lines 582-586): the running index, in the flattened step list, of
each breakpoint of `t_list` — the cumulative sums of the step counts, starting at `0`. -/
def t_list_locations {A B : Type*} (triples : List (A × B × ℕ)) : List ℕ :=
  List.scanl (fun acc x => acc + x.2.2) 0 triples

/-- Helper for `associative_scan_reverse_mul`: running combination with accumulator. -/
def scanAcc {M : Type*} [Mul M] (acc : M) : List M → List M
  | [] => []
  | p :: rest => (p * acc) :: scanAcc (p * acc) rest

/-- `jax.lax.associative_scan` with the combinator `reverse_mul (A, B) = B·A`
(lines 594-606).  For an associative operator the parallel reduction tree computes exactly
the left-to-right prefix combinations, which is what this sequential model produces:
entry `j` is `P_j · P_{j-1} · … · P_0`. -/
def associative_scan_reverse_mul {M : Type*} [Mul M] : List M → List M
  | [] => []
  | p :: rest => p :: scanAcc p rest

/-- The square-`y0` branch of `fixed_step_lmde_solver_parallel_template_jax`
(lines 597-602): `y0` is prepended to the per-step propagators before the scan, and the scan
outputs at `t_list_locations` are the trajectory. -/
def parallel_template_square_core {T G M : Type*} [CommRing T] [Mul M] [One M]
    (take_step : G → T → T → M) (generator : G)
    (t_list h_list : List T) (n_steps_list : List ℕ) (y0 : M) : List M :=
  let triples := zip3 t_list h_list n_steps_list
  let step_propagators := (stepPoints triples).map (fun p => take_step generator p.1 p.2)
  let intermediate_props := associative_scan_reverse_mul (y0 :: step_propagators)
  (t_list_locations triples).map (fun l => intermediate_props.getD l 1)

/-- The non-square-`y0` branch of `fixed_step_lmde_solver_parallel_template_jax`
(lines 603-609): the propagators are scanned alone, the scan outputs at
`t_list_locations[1:] - 1` are applied to `y0` (numpy `@`, modelled by the conformable
product `app` — matrix-matrix or matrix-vector), and `y0` itself is prepended at `t_0`. -/
def parallel_template_nonsquare_core {T G M α : Type*} [CommRing T] [Mul M] [One M]
    (app : M → α → α) (take_step : G → T → T → M) (generator : G)
    (t_list h_list : List T) (n_steps_list : List ℕ) (y0 : α) : List α :=
  let triples := zip3 t_list h_list n_steps_list
  let step_propagators := (stepPoints triples).map (fun p => take_step generator p.1 p.2)
  let intermediate_props := associative_scan_reverse_mul step_propagators
  y0 :: ((t_list_locations triples).tail.map
    (fun l => app (intermediate_props.getD (l - 1) 1) y0))

/-- The product of a list of propagators applied first-to-last — `P_k · … · P_2 · P_1` for
`l = [P_1, P_2, …, P_k]` — the cumulative propagator of the composed steps. -/
def revProd {M : Type*} [Mul M] [One M] (l : List M) : M :=
  l.foldl (fun acc p => p * acc) 1

/-! ### Prefix-product and scan lemmas -/

section ScanLemmas

variable {M : Type*} [Monoid M]

lemma foldl_mulRev (l : List M) (y : M) :
    l.foldl (fun acc p => p * acc) y = revProd l * y := by
  induction l generalizing y with
  | nil => simp [revProd]
  | cons p tl ih =>
    show List.foldl _ (p * y) tl = revProd (p :: tl) * y
    rw [ih (p * y)]
    have hc : revProd (p :: tl) = revProd tl * p := by
      show List.foldl _ (p * 1) tl = _
      rw [ih (p * 1), mul_one]
    rw [hc, mul_assoc]

lemma revProd_nil : revProd ([] : List M) = 1 := rfl

lemma revProd_cons (p : M) (l : List M) : revProd (p :: l) = revProd l * p := by
  show List.foldl _ (p * 1) l = _
  rw [foldl_mulRev, mul_one]

lemma revProd_append (a b : List M) : revProd (a ++ b) = revProd b * revProd a := by
  show List.foldl _ _ (a ++ b) = _
  rw [List.foldl_append]
  exact foldl_mulRev b _

lemma scanAcc_getD (l : List M) : ∀ (acc : M) (j : ℕ), j < l.length →
    (scanAcc acc l).getD j 1 = revProd (l.take (j + 1)) * acc := by
  induction l with
  | nil => intro acc j hj; simp at hj
  | cons p tl ih =>
    intro acc j hj
    cases j with
    | zero =>
      simp [scanAcc, List.take_succ_cons, revProd_cons, revProd_nil]
    | succ j =>
      show (scanAcc (p * acc) tl).getD j 1 = _
      rw [ih (p * acc) j (by simpa using hj), List.take_succ_cons, revProd_cons, mul_assoc]

lemma associative_scan_getD (l : List M) (j : ℕ) (hj : j < l.length) :
    (associative_scan_reverse_mul l).getD j 1 = revProd (l.take (j + 1)) := by
  cases l with
  | nil => simp at hj
  | cons p tl =>
    cases j with
    | zero =>
      simp [associative_scan_reverse_mul, List.take_succ_cons, revProd_cons, revProd_nil]
    | succ j =>
      show (scanAcc p tl).getD j 1 = _
      rw [scanAcc_getD tl p j (by simpa using hj), List.take_succ_cons, revProd_cons]

end ScanLemmas

/-! ### Location and flattening lemmas -/

lemma scanl_add_mem_le {A : Type*} (g : A → ℕ) :
    ∀ (L : List A) (c : ℕ), ∀ l ∈ List.scanl (fun acc x => acc + g x) c L,
      l ≤ c + (L.map g).sum := by
  intro L
  induction L with
  | nil =>
    intro c l hl
    simp [List.scanl] at hl
    simp [hl]
  | cons x tl ih =>
    intro c l hl
    rw [List.scanl_cons] at hl
    simp only [List.cons_append, List.nil_append, List.mem_cons] at hl
    rcases hl with rfl | hl
    · simp
    · have := ih (c + g x) l hl
      simp only [List.map_cons, List.sum_cons]
      omega

lemma scanl_add_mem_ge {A : Type*} (g : A → ℕ) :
    ∀ (L : List A) (c : ℕ), ∀ l ∈ List.scanl (fun acc x => acc + g x) c L, c ≤ l := by
  intro L
  induction L with
  | nil =>
    intro c l hl
    simp [List.scanl] at hl
    simp [hl]
  | cons x tl ih =>
    intro c l hl
    rw [List.scanl_cons] at hl
    simp only [List.cons_append, List.nil_append, List.mem_cons] at hl
    rcases hl with rfl | hl
    · exact le_refl _
    · have := ih (c + g x) l hl
      omega

lemma scanl_add_shift {A : Type*} (g : A → ℕ) :
    ∀ (L : List A) (c : ℕ),
      List.scanl (fun acc x => acc + g x) c L
        = (List.scanl (fun acc x => acc + g x) 0 L).map (fun l => c + l) := by
  intro L
  induction L with
  | nil => intro c; simp [List.scanl]
  | cons x tl ih =>
    intro c
    rw [List.scanl_cons, List.scanl_cons, ih (c + g x), Nat.zero_add, ih (g x)]
    simp only [List.cons_append, List.nil_append, List.map_cons, List.map_map]
    refine congrArg₂ List.cons (by omega) ?_
    exact List.map_congr_left (fun a _ => by simp [Function.comp]; omega)

/-- The flattened per-step propagators of the parallel composer over a triple list. -/
def allProps {T G M : Type*} [CommRing T] (take_step : G → T → T → M) (generator : G)
    (triples : List (T × T × ℕ)) : List M :=
  (stepPoints triples).map (fun p => take_step generator p.1 p.2)

lemma allProps_cons {T G M : Type*} [CommRing T] (take_step : G → T → T → M) (generator : G)
    (t h : T) (n : ℕ) (rest : List (T × T × ℕ)) :
    allProps take_step generator ((t, h, n) :: rest)
      = ((List.range n).map (fun (k : ℕ) => take_step generator (t + h * (k : T)) h))
          ++ allProps take_step generator rest := by
  simp [allProps, stepPoints, List.flatMap_cons]

lemma stepPoints_cons {T : Type*} [CommRing T] (x : T × T × ℕ) (tl : List (T × T × ℕ)) :
    stepPoints (x :: tl)
      = (List.range x.2.2).map (fun (k : ℕ) => (x.1 + x.2.1 * (k : T), x.2.1))
          ++ stepPoints tl := by
  simp [stepPoints, List.flatMap_cons]

lemma length_stepPoints {T : Type*} [CommRing T] (triples : List (T × T × ℕ)) :
    (stepPoints triples).length = (triples.map (fun x => x.2.2)).sum := by
  induction triples with
  | nil => rfl
  | cons x tl ih =>
    rw [stepPoints_cons, List.length_append, List.length_map, List.length_range, ih,
      List.map_cons, List.sum_cons]

lemma length_allProps {T G M : Type*} [CommRing T] (take_step : G → T → T → M) (generator : G)
    (triples : List (T × T × ℕ)) :
    (allProps take_step generator triples).length = (triples.map (fun x => x.2.2)).sum := by
  rw [allProps, List.length_map, length_stepPoints]

lemma t_list_locations_mem_le {A B : Type*} (triples : List (A × B × ℕ)) :
    ∀ l ∈ t_list_locations triples, l ≤ (triples.map (fun x => x.2.2)).sum := by
  intro l hl
  have hl' : l ∈ List.scanl (fun acc (x : A × B × ℕ) => acc + x.2.2) 0 triples := hl
  simpa using scanl_add_mem_le (fun (x : A × B × ℕ) => x.2.2) triples 0 l hl'

lemma t_list_locations_tail_pos {A B : Type*} (triples : List (A × B × ℕ))
    (hn : ∀ x ∈ triples, 1 ≤ x.2.2) :
    ∀ l ∈ (t_list_locations triples).tail, 1 ≤ l := by
  cases triples with
  | nil => simp [t_list_locations, List.scanl]
  | cons x tl =>
    intro l hl
    have hmem : l ∈ List.scanl (fun acc y => acc + y.2.2) (0 + x.2.2) tl := by
      simpa [t_list_locations, List.scanl_cons] using hl
    have hge := scanl_add_mem_ge (fun y => y.2.2) tl (0 + x.2.2) l hmem
    have hx := hn x (by simp)
    omega

lemma t_list_locations_tail_mem {A B : Type*} (triples : List (A × B × ℕ)) :
    ∀ l ∈ (t_list_locations triples).tail, l ∈ t_list_locations triples := by
  intro l hl
  exact List.mem_of_mem_tail hl

/-! ### The sequential trajectory as cumulative propagator products -/

section ActionLemmas

variable {T G M α : Type*} [CommRing T] [Monoid M]
variable (act : M → α → α) (prop : G → T → T → M) (generator : G)

/-- When every step is the action of a step propagator, the inner loop of the sequential
template acts by the reverse-ordered product of the per-sub-step propagators. -/
lemma innerSteps_action
    (hact1 : ∀ y, act 1 y = y)
    (hactmul : ∀ a b y, act (a * b) y = act a (act b y))
    (ts : G → T → α → T → α)
    (hstep : ∀ t y h, ts generator t y h = act (prop generator t h) y) :
    ∀ (n : ℕ) (h t : T) (y : α),
      innerSteps ts generator h n t y
        = act (revProd ((List.range n).map
            (fun (k : ℕ) => prop generator (t + h * (k : T)) h))) y := by
  intro n
  induction n with
  | zero =>
    intro h t y
    simp [innerSteps, revProd_nil, hact1]
  | succ n ih =>
    intro h t y
    rw [innerSteps, ih h (t + h) (ts generator t y h), hstep t y h, ← hactmul]
    congr 1
    rw [List.range_succ_eq_map, List.map_cons, revProd_cons, List.map_map]
    congr 1
    · apply congrArg
      apply List.map_congr_left
      intro k _
      simp only [Function.comp]
      congr 1
      push_cast
      ring
    · congr 1
      push_cast
      ring

/-- Master lemma: the sequential trajectory (with `y0` prepended) is, at each breakpoint
location, the action of the cumulative product of all preceding step propagators. -/
lemma seq_trajectory_repr
    (hact1 : ∀ y, act 1 y = y)
    (hactmul : ∀ a b y, act (a * b) y = act a (act b y))
    (ts : G → T → α → T → α)
    (hstep : ∀ t y h, ts generator t y h = act (prop generator t h) y) :
    ∀ (L : List (T × T × ℕ)) (y : α),
      y :: seqIntervals ts generator L y
        = (t_list_locations L).map
            (fun l => act (revProd ((allProps prop generator L).take l)) y) := by
  intro L
  induction L with
  | nil =>
    intro y
    simp [seqIntervals, t_list_locations, List.scanl, revProd_nil, hact1]
  | cons x tl ih =>
    intro y
    obtain ⟨t, h, n⟩ := x
    have hy' : innerSteps ts generator h n t y
        = act (revProd ((List.range n).map
            (fun (k : ℕ) => prop generator (t + h * (k : T)) h))) y :=
      innerSteps_action act prop generator hact1 hactmul ts hstep n h t y
    show y :: (innerSteps ts generator h n t y :: seqIntervals ts generator tl
        (innerSteps ts generator h n t y)) = _
    rw [ih (innerSteps ts generator h n t y)]
    show _ = (t_list_locations ((t, h, n) :: tl)).map _
    have hloc : t_list_locations ((t, h, n) :: tl)
        = 0 :: (t_list_locations tl).map (fun l => n + l) := by
      show List.scanl _ 0 _ = _
      rw [List.scanl_cons]
      have h0 : (0 : ℕ) + n = n := Nat.zero_add n
      rw [h0, scanl_add_shift (fun (x : T × T × ℕ) => x.2.2) tl n]
      rfl
    rw [hloc, List.map_cons, List.map_map]
    have hhead : act (revProd ((allProps prop generator ((t, h, n) :: tl)).take 0)) y = y := by
      simp [revProd_nil, hact1]
    rw [hhead]
    congr 1
    apply List.map_congr_left
    intro l _
    simp only [Function.comp]
    have hsplit : (allProps prop generator ((t, h, n) :: tl)).take (n + l)
        = ((List.range n).map (fun (k : ℕ) => prop generator (t + h * (k : T)) h))
            ++ (allProps prop generator tl).take l := by
      have hlen : ((List.range n).map
          (fun (k : ℕ) => prop generator (t + h * (k : T)) h)).length = n := by
        rw [List.length_map, List.length_range]
      have htake := @List.take_append _
        ((List.range n).map (fun (k : ℕ) => prop generator (t + h * (k : T)) h))
        (allProps prop generator tl) l
      rw [hlen] at htake
      rw [allProps_cons, htake]
    rw [hsplit, revProd_append, hactmul, ← hy']

end ActionLemmas

/-! ### The parallel trajectories as cumulative propagator products -/

section ParallelRepr

variable {T G M : Type*} [CommRing T] [Monoid M]

/-- The square-`y0` branch of the parallel composer extracts, at each breakpoint location,
exactly the cumulative propagator times `y0`. -/
lemma parallel_square_repr (take_step : G → T → T → M) (generator : G)
    (t_list h_list : List T) (n_steps_list : List ℕ) (y0 : M) :
    parallel_template_square_core take_step generator t_list h_list n_steps_list y0
      = (t_list_locations (zip3 t_list h_list n_steps_list)).map
          (fun l =>
            revProd ((allProps take_step generator (zip3 t_list h_list n_steps_list)).take l)
              * y0) := by
  unfold parallel_template_square_core
  apply List.map_congr_left
  intro l hl
  have hle : l ≤ (allProps take_step generator (zip3 t_list h_list n_steps_list)).length := by
    rw [length_allProps]
    exact t_list_locations_mem_le _ l hl
  have hlt : l < (y0 :: allProps take_step generator (zip3 t_list h_list n_steps_list)).length := by
    simp only [List.length_cons]
    omega
  have hscan := associative_scan_getD
    (y0 :: allProps take_step generator (zip3 t_list h_list n_steps_list)) l hlt
  rw [List.take_succ_cons, revProd_cons] at hscan
  exact hscan

/-- The non-square-`y0` branch of the parallel composer: `y0` at `t_0`, and at each later
breakpoint the cumulative propagator applied to `y0`. -/
lemma parallel_nonsquare_repr {β : Type*} (app : M → β → β) (take_step : G → T → T → M)
    (generator : G) (t_list h_list : List T) (n_steps_list : List ℕ) (y0 : β)
    (hn : ∀ x ∈ zip3 t_list h_list n_steps_list, 1 ≤ x.2.2) :
    parallel_template_nonsquare_core app take_step generator t_list h_list n_steps_list y0
      = y0 :: ((t_list_locations (zip3 t_list h_list n_steps_list)).tail.map
          (fun l =>
            app (revProd
              ((allProps take_step generator (zip3 t_list h_list n_steps_list)).take l)) y0)) := by
  simp only [parallel_template_nonsquare_core]
  congr 1
  apply List.map_congr_left
  intro l hl
  have h1 : 1 ≤ l := t_list_locations_tail_pos _ hn l hl
  have hle : l ≤ (allProps take_step generator (zip3 t_list h_list n_steps_list)).length := by
    rw [length_allProps]
    exact t_list_locations_mem_le _ l (t_list_locations_tail_mem _ l hl)
  have hlt : l - 1 < (allProps take_step generator (zip3 t_list h_list n_steps_list)).length := by
    omega
  have hscan := associative_scan_getD
    (allProps take_step generator (zip3 t_list h_list n_steps_list)) (l - 1) hlt
  have hsucc : (l - 1) + 1 = l := by omega
  rw [hsucc] at hscan
  exact congrArg (fun m => app m y0) hscan

end ParallelRepr

/-! ## C1 and C5: the parallel propagator composer -/

lemma grid_n_steps_pos (t_span : ℚ × ℚ) (t_eval : Option (List ℚ)) (max_dt : ℚ) :
    ∀ n ∈ (get_fixed_step_sizes t_span t_eval max_dt).2.2, 1 ≤ n := by
  intro n hn
  have h2 : (get_fixed_step_sizes t_span t_eval max_dt).2.2 =
      (List.zipWith (fun a b => b - a) (merge_t_args t_span t_eval)
        (merge_t_args t_span t_eval).tail).map (nStepsFor max_dt) := rfl
  rw [h2] at hn
  obtain ⟨p, _, rfl⟩ := List.mem_map.1 hn
  exact nStepsFor_pos max_dt p

lemma zip3_n_mem {A B : Type*} (as : List A) (bs : List B) (cs : List ℕ) :
    ∀ x ∈ zip3 as bs cs, x.2.2 ∈ cs := by
  intro x hx
  obtain ⟨a, b, c⟩ := x
  have h1 := List.of_mem_zip hx
  have h2 := List.of_mem_zip h1.2
  exact h2.2

lemma t_list_locations_head {A B : Type*} (triples : List (A × B × ℕ)) :
    t_list_locations triples = 0 :: (t_list_locations triples).tail := by
  cases triples with
  | nil => rfl
  | cons x tl => rfl

/-- C1: Mode equivalence.  For every LMDE generator, every grid built by
`get_fixed_step_sizes` from a valid `(t_span, t_eval, max_dt)`, and every step rule given
both as a state-space step `take_step(generator, t, y, h) = propagator(generator, t, h)·y`
and in its propagator-only form, the parallel composer
(`fixed_step_lmde_solver_parallel_template_jax`, both the square-`y0` and the vector-`y0`
branch) produces exactly the trajectory of the sequential template
`fixed_step_solver_template` at every grid breakpoint, in exact arithmetic; this rests on
the scan combinator being `combine(A, B) = B·A`, so that the cumulative products apply the
step propagators in first-to-last order. -/
theorem mode_equivalence {d : ℕ} (generator : ℚ → Matrix (Fin d) (Fin d) ℂ)
    (prop : (ℚ → Matrix (Fin d) (Fin d) ℂ) → ℚ → ℚ → Matrix (Fin d) (Fin d) ℂ)
    (take_stepM : (ℚ → Matrix (Fin d) (Fin d) ℂ) → ℚ → Matrix (Fin d) (Fin d) ℂ → ℚ →
      Matrix (Fin d) (Fin d) ℂ)
    (take_stepV : (ℚ → Matrix (Fin d) (Fin d) ℂ) → ℚ → (Fin d → ℂ) → ℚ → (Fin d → ℂ))
    (t_span : ℚ × ℚ) (t_eval : Option (List ℚ)) (max_dt : ℚ) (hmax : 0 < max_dt)
    (hM : ∀ t y h, take_stepM generator t y h = prop generator t h * y)
    (hV : ∀ t y h, take_stepV generator t y h = (prop generator t h).mulVec y) :
    (∀ y0 : Matrix (Fin d) (Fin d) ℂ,
      parallel_template_square_core prop generator
          (get_fixed_step_sizes t_span t_eval max_dt).1
          (get_fixed_step_sizes t_span t_eval max_dt).2.1
          (get_fixed_step_sizes t_span t_eval max_dt).2.2 y0
        = fixed_step_solver_template_core take_stepM generator
            (get_fixed_step_sizes t_span t_eval max_dt).1
            (get_fixed_step_sizes t_span t_eval max_dt).2.1
            (get_fixed_step_sizes t_span t_eval max_dt).2.2 y0) ∧
    (∀ y0 : Fin d → ℂ,
      parallel_template_nonsquare_core Matrix.mulVec prop generator
          (get_fixed_step_sizes t_span t_eval max_dt).1
          (get_fixed_step_sizes t_span t_eval max_dt).2.1
          (get_fixed_step_sizes t_span t_eval max_dt).2.2 y0
        = fixed_step_solver_template_core take_stepV generator
            (get_fixed_step_sizes t_span t_eval max_dt).1
            (get_fixed_step_sizes t_span t_eval max_dt).2.1
            (get_fixed_step_sizes t_span t_eval max_dt).2.2 y0) := by
  constructor
  · intro y0
    exact (parallel_square_repr prop generator _ _ _ y0).trans
      (seq_trajectory_repr (fun m y => m * y) prop generator (fun y => one_mul y)
        (fun a b y => mul_assoc a b y) take_stepM hM _ y0).symm
  · intro y0
    have hn : ∀ x ∈ zip3 (get_fixed_step_sizes t_span t_eval max_dt).1
        (get_fixed_step_sizes t_span t_eval max_dt).2.1
        (get_fixed_step_sizes t_span t_eval max_dt).2.2, 1 ≤ x.2.2 :=
      fun x hx => grid_n_steps_pos t_span t_eval max_dt x.2.2 (zip3_n_mem _ _ _ x hx)
    have hseq := seq_trajectory_repr (fun m (y : Fin d → ℂ) => m.mulVec y) prop generator
      (fun y => Matrix.one_mulVec y) (fun a b y => (Matrix.mulVec_mulVec y a b).symm)
      take_stepV hV
      (zip3 (get_fixed_step_sizes t_span t_eval max_dt).1
        (get_fixed_step_sizes t_span t_eval max_dt).2.1
        (get_fixed_step_sizes t_span t_eval max_dt).2.2) y0
    rw [t_list_locations_head, List.map_cons] at hseq
    have hF0 : (Matrix.mulVec (revProd ((allProps prop generator
        (zip3 (get_fixed_step_sizes t_span t_eval max_dt).1
          (get_fixed_step_sizes t_span t_eval max_dt).2.1
          (get_fixed_step_sizes t_span t_eval max_dt).2.2)).take 0)) y0) = y0 :=
      Matrix.one_mulVec y0
    rw [hF0] at hseq
    exact (parallel_nonsquare_repr Matrix.mulVec prop generator _ _ _ y0 hn).trans hseq.symm

/-- C5: Non-square initial-condition handling in the parallel composer.  When `y0` is a
square matrix it is prepended to the propagator list before the associative scan, so every
scan output extracted at a breakpoint location already equals the cumulative propagator
times `y0`; otherwise the propagators are scanned alone, the outputs at the retained
positions (sum of the preceding step counts, minus one) are right-multiplied into `y0`, and
`y0` itself is prepended at `t_0`.  In both branches the first trajectory value is exactly
`y0`. -/
theorem parallel_composer_y0_branches {d : ℕ}
    (prop : (ℚ → Matrix (Fin d) (Fin d) ℂ) → ℚ → ℚ → Matrix (Fin d) (Fin d) ℂ)
    (generator : ℚ → Matrix (Fin d) (Fin d) ℂ)
    (t_span : ℚ × ℚ) (t_eval : Option (List ℚ)) (max_dt : ℚ) (hmax : 0 < max_dt) :
    (∀ y0 : Matrix (Fin d) (Fin d) ℂ,
      parallel_template_square_core prop generator
          (get_fixed_step_sizes t_span t_eval max_dt).1
          (get_fixed_step_sizes t_span t_eval max_dt).2.1
          (get_fixed_step_sizes t_span t_eval max_dt).2.2 y0
        = (t_list_locations (zip3 (get_fixed_step_sizes t_span t_eval max_dt).1
              (get_fixed_step_sizes t_span t_eval max_dt).2.1
              (get_fixed_step_sizes t_span t_eval max_dt).2.2)).map
            (fun l => revProd ((allProps prop generator
                (zip3 (get_fixed_step_sizes t_span t_eval max_dt).1
                  (get_fixed_step_sizes t_span t_eval max_dt).2.1
                  (get_fixed_step_sizes t_span t_eval max_dt).2.2)).take l) * y0)
        ∧ (parallel_template_square_core prop generator
            (get_fixed_step_sizes t_span t_eval max_dt).1
            (get_fixed_step_sizes t_span t_eval max_dt).2.1
            (get_fixed_step_sizes t_span t_eval max_dt).2.2 y0).head? = some y0) ∧
    (∀ (β : Type) (app : Matrix (Fin d) (Fin d) ℂ → β → β) (y0 : β),
      parallel_template_nonsquare_core app prop generator
          (get_fixed_step_sizes t_span t_eval max_dt).1
          (get_fixed_step_sizes t_span t_eval max_dt).2.1
          (get_fixed_step_sizes t_span t_eval max_dt).2.2 y0
        = y0 :: ((t_list_locations (zip3 (get_fixed_step_sizes t_span t_eval max_dt).1
              (get_fixed_step_sizes t_span t_eval max_dt).2.1
              (get_fixed_step_sizes t_span t_eval max_dt).2.2)).tail.map
            (fun l => app (revProd ((allProps prop generator
                (zip3 (get_fixed_step_sizes t_span t_eval max_dt).1
                  (get_fixed_step_sizes t_span t_eval max_dt).2.1
                  (get_fixed_step_sizes t_span t_eval max_dt).2.2)).take l)) y0))
        ∧ (parallel_template_nonsquare_core app prop generator
            (get_fixed_step_sizes t_span t_eval max_dt).1
            (get_fixed_step_sizes t_span t_eval max_dt).2.1
            (get_fixed_step_sizes t_span t_eval max_dt).2.2 y0).head? = some y0) := by
  constructor
  · intro y0
    have hrepr := parallel_square_repr prop generator
      (get_fixed_step_sizes t_span t_eval max_dt).1
      (get_fixed_step_sizes t_span t_eval max_dt).2.1
      (get_fixed_step_sizes t_span t_eval max_dt).2.2 y0
    refine ⟨hrepr, ?_⟩
    rw [hrepr, t_list_locations_head, List.map_cons]
    show some (revProd (List.take 0 _) * y0) = some y0
    rw [List.take_zero, revProd_nil, one_mul]
  · intro β app y0
    have hn : ∀ x ∈ zip3 (get_fixed_step_sizes t_span t_eval max_dt).1
        (get_fixed_step_sizes t_span t_eval max_dt).2.1
        (get_fixed_step_sizes t_span t_eval max_dt).2.2, 1 ≤ x.2.2 :=
      fun x hx => grid_n_steps_pos t_span t_eval max_dt x.2.2 (zip3_n_mem _ _ _ x hx)
    have hrepr := parallel_nonsquare_repr app prop generator
      (get_fixed_step_sizes t_span t_eval max_dt).1
      (get_fixed_step_sizes t_span t_eval max_dt).2.1
      (get_fixed_step_sizes t_span t_eval max_dt).2.2 y0 hn
    exact ⟨hrepr, by rw [hrepr]; rfl⟩

/-- Witness for C1 at a concrete instance: a `1×1` constant generator, the trivial
propagator rule `prop(g, t, h) = g(t)`, and the grid of `t_span = (0, 1)`, `max_dt = 1`. -/
theorem mode_equivalence_witness :
    0 < (1 : ℚ) ∧
    ((∀ y0 : Matrix (Fin 1) (Fin 1) ℂ,
      parallel_template_square_core (fun g t _ => g t) (fun _ => (1 : Matrix (Fin 1) (Fin 1) ℂ))
          (get_fixed_step_sizes (0, 1) none 1).1
          (get_fixed_step_sizes (0, 1) none 1).2.1
          (get_fixed_step_sizes (0, 1) none 1).2.2 y0
        = fixed_step_solver_template_core (fun g t y _ => g t * y)
            (fun _ => (1 : Matrix (Fin 1) (Fin 1) ℂ))
            (get_fixed_step_sizes (0, 1) none 1).1
            (get_fixed_step_sizes (0, 1) none 1).2.1
            (get_fixed_step_sizes (0, 1) none 1).2.2 y0) ∧
    (∀ y0 : Fin 1 → ℂ,
      parallel_template_nonsquare_core Matrix.mulVec (fun g t _ => g t)
          (fun _ => (1 : Matrix (Fin 1) (Fin 1) ℂ))
          (get_fixed_step_sizes (0, 1) none 1).1
          (get_fixed_step_sizes (0, 1) none 1).2.1
          (get_fixed_step_sizes (0, 1) none 1).2.2 y0
        = fixed_step_solver_template_core (fun g t y _ => (g t).mulVec y)
            (fun _ => (1 : Matrix (Fin 1) (Fin 1) ℂ))
            (get_fixed_step_sizes (0, 1) none 1).1
            (get_fixed_step_sizes (0, 1) none 1).2.1
            (get_fixed_step_sizes (0, 1) none 1).2.2 y0)) :=
  ⟨by norm_num,
    mode_equivalence (fun _ => (1 : Matrix (Fin 1) (Fin 1) ℂ)) (fun g t _ => g t)
      (fun g t y _ => g t * y) (fun g t y _ => (g t).mulVec y)
      (0, 1) none 1 (by norm_num) (fun _ _ _ => rfl) (fun _ _ _ => rfl)⟩

/-- Witness for C5 at the same concrete instance. -/
theorem parallel_composer_y0_branches_witness :
    0 < (1 : ℚ) ∧
    ((∀ y0 : Matrix (Fin 1) (Fin 1) ℂ,
      parallel_template_square_core (fun g t _ => g t) (fun _ => (1 : Matrix (Fin 1) (Fin 1) ℂ))
          (get_fixed_step_sizes (0, 1) none 1).1
          (get_fixed_step_sizes (0, 1) none 1).2.1
          (get_fixed_step_sizes (0, 1) none 1).2.2 y0
        = (t_list_locations (zip3 (get_fixed_step_sizes (0, 1) none 1).1
              (get_fixed_step_sizes (0, 1) none 1).2.1
              (get_fixed_step_sizes (0, 1) none 1).2.2)).map
            (fun l => revProd ((allProps (fun g t _ => g t)
                (fun _ => (1 : Matrix (Fin 1) (Fin 1) ℂ))
                (zip3 (get_fixed_step_sizes (0, 1) none 1).1
                  (get_fixed_step_sizes (0, 1) none 1).2.1
                  (get_fixed_step_sizes (0, 1) none 1).2.2)).take l) * y0)
        ∧ (parallel_template_square_core (fun g t _ => g t)
            (fun _ => (1 : Matrix (Fin 1) (Fin 1) ℂ))
            (get_fixed_step_sizes (0, 1) none 1).1
            (get_fixed_step_sizes (0, 1) none 1).2.1
            (get_fixed_step_sizes (0, 1) none 1).2.2 y0).head? = some y0) ∧
    (∀ (β : Type) (app : Matrix (Fin 1) (Fin 1) ℂ → β → β) (y0 : β),
      parallel_template_nonsquare_core app (fun g t _ => g t)
          (fun _ => (1 : Matrix (Fin 1) (Fin 1) ℂ))
          (get_fixed_step_sizes (0, 1) none 1).1
          (get_fixed_step_sizes (0, 1) none 1).2.1
          (get_fixed_step_sizes (0, 1) none 1).2.2 y0
        = y0 :: ((t_list_locations (zip3 (get_fixed_step_sizes (0, 1) none 1).1
              (get_fixed_step_sizes (0, 1) none 1).2.1
              (get_fixed_step_sizes (0, 1) none 1).2.2)).tail.map
            (fun l => app (revProd ((allProps (fun g t _ => g t)
                (fun _ => (1 : Matrix (Fin 1) (Fin 1) ℂ))
                (zip3 (get_fixed_step_sizes (0, 1) none 1).1
                  (get_fixed_step_sizes (0, 1) none 1).2.1
                  (get_fixed_step_sizes (0, 1) none 1).2.2)).take l)) y0))
        ∧ (parallel_template_nonsquare_core app (fun g t _ => g t)
            (fun _ => (1 : Matrix (Fin 1) (Fin 1) ℂ))
            (get_fixed_step_sizes (0, 1) none 1).1
            (get_fixed_step_sizes (0, 1) none 1).2.1
            (get_fixed_step_sizes (0, 1) none 1).2.2 y0).head? = some y0)) :=
  ⟨by norm_num,
    parallel_composer_y0_branches (fun g t _ => g t) (fun _ => (1 : Matrix (Fin 1) (Fin 1) ℂ))
      (0, 1) none 1 (by norm_num)⟩

/-! ## C10: the JAX sequential template -/

lemma jaxSteps_past {T R α : Type*} [Add T] (ts : R → T → α → T → α) (rhs : R)
    (h : T) (n : ℕ) :
    ∀ (r idx : ℕ), n ≤ idx → ∀ (t : T) (y : α), jaxSteps ts rhs h n idx r t y = y := by
  intro r
  induction r with
  | zero => intro idx _ t y; rfl
  | succ r ih =>
    intro idx hidx t y
    show jaxSteps ts rhs h n (idx + 1) r (t + h) (if idx < n then ts rhs t y h else y) = y
    rw [if_neg (by omega)]
    exact ih (idx + 1) (by omega) (t + h) y

lemma jaxSteps_eq_innerSteps {T R α : Type*} [Add T] (ts : R → T → α → T → α) (rhs : R)
    (h : T) (n : ℕ) :
    ∀ (r idx : ℕ) (t : T) (y : α),
      jaxSteps ts rhs h n idx r t y = innerSteps ts rhs h (min (n - idx) r) t y := by
  intro r
  induction r with
  | zero => intro idx t y; simp [jaxSteps, innerSteps]
  | succ r ih =>
    intro idx t y
    by_cases hc : idx < n
    · show jaxSteps ts rhs h n (idx + 1) r (t + h) (if idx < n then ts rhs t y h else y) = _
      rw [if_pos hc, ih (idx + 1) (t + h) (ts rhs t y h)]
      have hmin : min (n - idx) (r + 1) = min (n - (idx + 1)) r + 1 := by omega
      rw [hmin]
      rfl
    · show jaxSteps ts rhs h n (idx + 1) r (t + h) (if idx < n then ts rhs t y h else y) = _
      rw [if_neg hc, jaxSteps_past ts rhs h n r (idx + 1) (by omega) (t + h) y]
      have hmin : min (n - idx) (r + 1) = 0 := by omega
      rw [hmin]
      rfl

lemma foldr_max_le (l : List ℕ) : ∀ n ∈ l, n ≤ l.foldr max 0 := by
  induction l with
  | nil => simp
  | cons x tl ih =>
    intro n hn
    rcases List.mem_cons.1 hn with rfl | hmem
    · exact le_max_left _ _
    · exact le_trans (ih n hmem) (le_max_right _ _)

lemma seqIntervalsJax_eq {T R α : Type*} [Add T] (ts : R → T → α → T → α) (rhs : R)
    (ms : ℕ) :
    ∀ (L : List (T × T × ℕ)), (∀ x ∈ L, x.2.2 ≤ ms) → ∀ (y : α),
      seqIntervalsJax ts rhs ms L y = seqIntervals ts rhs L y := by
  intro L
  induction L with
  | nil => intro _ y; rfl
  | cons x tl ih =>
    intro hms y
    obtain ⟨t, h, n⟩ := x
    have h1 : jaxSteps ts rhs h n 0 ms t y = innerSteps ts rhs h n t y := by
      rw [jaxSteps_eq_innerSteps ts rhs h n ms 0 t y]
      have hn : n ≤ ms := hms (t, h, n) (by simp)
      have hm : min (n - 0) ms = n := by omega
      rw [hm]
    show (jaxSteps ts rhs h n 0 ms t y)
        :: seqIntervalsJax ts rhs ms tl (jaxSteps ts rhs h n 0 ms t y)
      = (innerSteps ts rhs h n t y) :: seqIntervals ts rhs tl (innerSteps ts rhs h n t y)
    rw [h1, ih (fun z hz => hms z (List.mem_cons_of_mem _ hz)) (innerSteps ts rhs h n t y)]

lemma zip_take_length {A B : Type*} :
    ∀ (l1 : List A) (l2 : List B), l1.zip l2 = (l1.take l2.length).zip l2 := by
  intro l1
  induction l1 with
  | nil => intro l2; simp
  | cons a t ih =>
    intro l2
    cases l2 with
    | nil => simp
    | cons b t2 => simp [ih t2]

lemma zip3_dropLast {A B : Type*} (t_list : List A) (h_list : List B) (n_list : List ℕ)
    (hlen1 : t_list.length = h_list.length + 1) (hlen2 : n_list.length = h_list.length) :
    zip3 t_list.dropLast h_list n_list = zip3 t_list h_list n_list := by
  unfold zip3
  have hlen3 : (h_list.zip n_list).length = h_list.length := by
    rw [List.length_zip]
    omega
  rw [List.dropLast_eq_take, zip_take_length t_list (h_list.zip n_list),
    zip_take_length (List.take (t_list.length - 1) t_list) (h_list.zip n_list), hlen3,
    List.take_take]
  have hm : min h_list.length (t_list.length - 1) = h_list.length := by omega
  rw [hm]

/-- C10: the JAX sequential template is equivalent to the plain sequential template.  For
every `take_step`, every well-formed grid `(t_list, h_list, n_steps_list)` and every `y0`,
the `cond`-gated scan of `fixed_step_solver_template_jax` — which pads every interval to
`max(n_steps_list)` iterations and applies the identity on iterations with index `≥ n_i`
while the inner time still advances — applies `take_step` exactly `n_i` times per interval
with step size `h_i`, so in exact arithmetic its trajectory (with `y0` prepended at `t_0`)
equals that of `fixed_step_solver_template`. -/
theorem jax_template_equivalence {T R α : Type*} [Add T] (take_step : R → T → α → T → α)
    (rhs_func : R) (t_list h_list : List T) (n_steps_list : List ℕ) (y0 : α)
    (hlen1 : t_list.length = h_list.length + 1)
    (hlen2 : n_steps_list.length = h_list.length) :
    fixed_step_solver_template_jax_core take_step rhs_func t_list h_list n_steps_list y0
      = fixed_step_solver_template_core take_step rhs_func t_list h_list n_steps_list y0 := by
  show y0 :: seqIntervalsJax take_step rhs_func (n_steps_list.foldr max 0)
      (zip3 t_list.dropLast h_list n_steps_list) y0
    = y0 :: seqIntervals take_step rhs_func (zip3 t_list h_list n_steps_list) y0
  rw [zip3_dropLast t_list h_list n_steps_list hlen1 hlen2]
  have htail := seqIntervalsJax_eq take_step rhs_func (n_steps_list.foldr max 0)
    (zip3 t_list h_list n_steps_list)
    (fun x hx => foldr_max_le n_steps_list x.2.2 (zip3_n_mem _ _ _ x hx)) y0
  rw [htail]

/-- Witness for C10 on a concrete two-breakpoint grid. -/
theorem jax_template_equivalence_witness :
    ([(0 : ℚ), 1].length = [(1 : ℚ)].length + 1) ∧ ([2].length = [(1 : ℚ)].length) ∧
    fixed_step_solver_template_jax_core (fun (_ : Unit) t y h => y + t + h) () [(0 : ℚ), 1]
        [(1 : ℚ)] [2] (5 : ℚ)
      = fixed_step_solver_template_core (fun (_ : Unit) t y h => y + t + h) () [(0 : ℚ), 1]
          [(1 : ℚ)] [2] (5 : ℚ) :=
  ⟨rfl, rfl,
    jax_template_equivalence (fun (_ : Unit) t y h => y + t + h) () [(0 : ℚ), 1] [(1 : ℚ)]
      [2] (5 : ℚ) rfl rfl⟩

/-! ## Step rule library (`get_exponential_take_step`, lines 308-403; RK4, lines 43-77,
206-244)

Times are real (the Gauss/Magnus nodes involve `√3` and `√15`), values are complex
matrices, and the matrix exponential routine `expm_func` is a parameter, exactly as in the
source. -/

/-- `matrix_commutator` (lines 308-318): `[m1, m2] = m1·m2 - m2·m1`. -/
def matrix_commutator {A : Type*} [Ring A] (m1 m2 : A) : A :=
  m1 * m2 - m2 * m1

/-- The `propagator` closures of `get_exponential_take_step` (lines 321-395), dispatching
on `magnus_order`; an unsupported order is the raised `QiskitError`, i.e. `none`
(`just_propagator = True` returns this function directly). -/
noncomputable def get_exponential_propagator (d : ℕ) (magnus_order : ℕ)
    (expm_func : Matrix (Fin d) (Fin d) ℂ → Matrix (Fin d) (Fin d) ℂ) :
    Option ((ℝ → Matrix (Fin d) (Fin d) ℂ) → ℝ → ℝ → Matrix (Fin d) (Fin d) ℂ) :=
  if magnus_order = 1 then
    some (fun generator t0 h => expm_func (h • generator (t0 + h / 2)))
  else if magnus_order = 2 then
    -- second-order step size constants (`0.5 ∓/± √3/6`, `√3/12`)
    let c1 : ℝ := 1 / 2 - Real.sqrt 3 / 6
    let c2 : ℝ := 1 / 2 + Real.sqrt 3 / 6
    let p2 : ℝ := Real.sqrt 3 / 12
    some (fun generator t0 h =>
      let g1 := generator (t0 + c1 * h)
      let g2 := generator (t0 + c2 * h)
      let terms := (h / 2) • (g1 + g2) + (p2 * h ^ 2) • matrix_commutator g2 g1
      expm_func terms)
  else if magnus_order = 3 then
    -- third-order step size constants
    let d1 : ℝ := 1 / 2 - Real.sqrt 15 / 10
    let d2 : ℝ := 1 / 2
    let d3 : ℝ := 1 / 2 + Real.sqrt 15 / 10
    let c0 : ℝ := Real.sqrt 15 / 3
    let c1 : ℝ := 10 / 3
    some (fun generator t0 h =>
      let g1 := generator (t0 + d1 * h)
      let g2 := generator (t0 + d2 * h)
      let g3 := generator (t0 + d3 * h)
      let a1 := h • g2
      let a2 := (c0 * h) • (g3 - g1)
      let a3 := (c1 * h) • (g3 - (2 : ℝ) • g2 + g1)
      let comm1 := matrix_commutator a1 a2
      let comm2 := (60 : ℝ)⁻¹ • matrix_commutator ((2 : ℝ) • a3 + comm1) a1
      let terms := a1 + (12 : ℝ)⁻¹ • a3 +
        (240 : ℝ)⁻¹ • matrix_commutator (-(20 : ℝ) • a1 - a3 + comm1) (a2 + comm2)
      expm_func terms)
  else none

/-- `get_exponential_take_step` with `just_propagator = False` (lines 397-403): the
state-space form, obtained from the propagator by a final right-multiplication with the
running state (which may be a rectangular matrix or column vector). -/
noncomputable def get_exponential_take_step (d k : ℕ) (magnus_order : ℕ)
    (expm_func : Matrix (Fin d) (Fin d) ℂ → Matrix (Fin d) (Fin d) ℂ) :
    Option ((ℝ → Matrix (Fin d) (Fin d) ℂ) → ℝ → Matrix (Fin d) (Fin k) ℂ → ℝ →
      Matrix (Fin d) (Fin k) ℂ) :=
  (get_exponential_propagator d magnus_order expm_func).map
    (fun propagator => fun generator t0 y h => propagator generator t0 h * y)

/-- The `take_step` of `RK4_solver` (lines 62-73): classical fourth-order Runge-Kutta on an
arbitrary state space. -/
noncomputable def RK4_take_step {α : Type*} [AddCommGroup α] [Module ℝ α]
    (rhs_func : ℝ → α → α) (t : ℝ) (y : α) (h : ℝ) : α :=
  let div6 : ℝ := 1 / 6
  let h2 : ℝ := (1 / 2) * h
  let t_plus_h2 := t + h2
  let k1 := rhs_func t y
  let k2 := rhs_func t_plus_h2 (y + h2 • k1)
  let k3 := rhs_func t_plus_h2 (y + h2 • k2)
  let k4 := rhs_func (t + h) (y + h • k3)
  y + (div6 * h) • (k1 + (2 : ℝ) • k2 + (2 : ℝ) • k3 + k4)

/-- The propagator-only `take_step` of `jax_RK4_parallel_solver` (lines 226-240): the same
stage combination applied to the identity initial condition, returning a bare matrix. -/
noncomputable def RK4_parallel_take_step {d : ℕ} (generator : ℝ → Matrix (Fin d) (Fin d) ℂ)
    (t h : ℝ) : Matrix (Fin d) (Fin d) ℂ :=
  let ident : Matrix (Fin d) (Fin d) ℂ := 1
  let div6 : ℝ := 1 / 6
  let h2 : ℝ := (1 / 2) * h
  let gh2 := generator (t + h2)
  let k1 := generator t
  let k2 := gh2 * (ident + h2 • k1)
  let k3 := gh2 * (ident + h2 • k2)
  let k4 := generator (t + h) * (ident + h • k3)
  ident + (div6 * h) • (k1 + (2 : ℝ) • k2 + (2 : ℝ) • k3 + k4)

/-- C7: Magnus order 2 formula.  The step function returned by
`get_exponential_take_step` with `magnus_order = 2` samples the generator at the two Gauss
nodes `t0 + (1/2 ∓ √3/6)·h` and returns
`expm(h/2·(G1 + G2) + (√3/12)·h²·(G2·G1 - G1·G2))` applied to `y`. -/
theorem magnus_order2_formula (d k : ℕ)
    (expm_func : Matrix (Fin d) (Fin d) ℂ → Matrix (Fin d) (Fin d) ℂ) :
    get_exponential_take_step d k 2 expm_func =
      some (fun generator t0 y h =>
        expm_func ((h / 2) • (generator (t0 + (1 / 2 - Real.sqrt 3 / 6) * h)
              + generator (t0 + (1 / 2 + Real.sqrt 3 / 6) * h))
          + (Real.sqrt 3 / 12 * h ^ 2) •
            (generator (t0 + (1 / 2 + Real.sqrt 3 / 6) * h)
                * generator (t0 + (1 / 2 - Real.sqrt 3 / 6) * h)
              - generator (t0 + (1 / 2 - Real.sqrt 3 / 6) * h)
                * generator (t0 + (1 / 2 + Real.sqrt 3 / 6) * h))) * y) := rfl

/-- C4: Magnus order 3 formula.  The step function returned by
`get_exponential_take_step` with `magnus_order = 3` samples the generator at the three
nodes `t0 + (1/2)·h` and `t0 + (1/2 ± √15/10)·h`, forms `a1 = h·G2`,
`a2 = (√15/3)·h·(G3 - G1)`, `a3 = (10/3)·h·(G3 - 2·G2 + G1)`, and returns
`expm(a1 + a3/12 + [-20·a1 - a3 + [a1,a2], a2 + [2·a3 + [a1,a2], a1]/60] / 240)` applied to
`y`, where `[A,B] = A·B - B·A`. -/
theorem magnus_order3_formula (d k : ℕ)
    (expm_func : Matrix (Fin d) (Fin d) ℂ → Matrix (Fin d) (Fin d) ℂ) :
    get_exponential_take_step d k 3 expm_func =
      some (fun generator t0 y h =>
        expm_func
          (h • generator (t0 + (1 / 2) * h)
            + (12 : ℝ)⁻¹ • ((10 / 3 * h) • (generator (t0 + (1 / 2 + Real.sqrt 15 / 10) * h)
                - (2 : ℝ) • generator (t0 + (1 / 2) * h)
                + generator (t0 + (1 / 2 - Real.sqrt 15 / 10) * h)))
            + (240 : ℝ)⁻¹ • matrix_commutator
                (-(20 : ℝ) • (h • generator (t0 + (1 / 2) * h))
                  - (10 / 3 * h) • (generator (t0 + (1 / 2 + Real.sqrt 15 / 10) * h)
                      - (2 : ℝ) • generator (t0 + (1 / 2) * h)
                      + generator (t0 + (1 / 2 - Real.sqrt 15 / 10) * h))
                  + matrix_commutator (h • generator (t0 + (1 / 2) * h))
                      ((Real.sqrt 15 / 3 * h) •
                        (generator (t0 + (1 / 2 + Real.sqrt 15 / 10) * h)
                          - generator (t0 + (1 / 2 - Real.sqrt 15 / 10) * h))))
                ((Real.sqrt 15 / 3 * h) • (generator (t0 + (1 / 2 + Real.sqrt 15 / 10) * h)
                      - generator (t0 + (1 / 2 - Real.sqrt 15 / 10) * h))
                  + (60 : ℝ)⁻¹ • matrix_commutator
                      ((2 : ℝ) • ((10 / 3 * h) •
                          (generator (t0 + (1 / 2 + Real.sqrt 15 / 10) * h)
                            - (2 : ℝ) • generator (t0 + (1 / 2) * h)
                            + generator (t0 + (1 / 2 - Real.sqrt 15 / 10) * h)))
                        + matrix_commutator (h • generator (t0 + (1 / 2) * h))
                            ((Real.sqrt 15 / 3 * h) •
                              (generator (t0 + (1 / 2 + Real.sqrt 15 / 10) * h)
                                - generator (t0 + (1 / 2 - Real.sqrt 15 / 10) * h))))
                      (h • generator (t0 + (1 / 2) * h)))) * y) := rfl

/-- C6: Propagator-only consistency.  For the Magnus rules the state-space step returned by
`get_exponential_take_step` is, by construction, the propagator-only form right-multiplied
into `y`; and for RK4 the matrix returned by the `take_step` of `jax_RK4_parallel_solver`
times `y` equals the RK4 state step of `RK4_solver` applied to the rhs
`f(t, y) = G(t)·y`, by linearity of the stage combination. -/
theorem propagator_only_consistency {d k : ℕ} :
    (∀ (magnus_order : ℕ)
        (expm_func : Matrix (Fin d) (Fin d) ℂ → Matrix (Fin d) (Fin d) ℂ)
        (P : (ℝ → Matrix (Fin d) (Fin d) ℂ) → ℝ → ℝ → Matrix (Fin d) (Fin d) ℂ),
      get_exponential_propagator d magnus_order expm_func = some P →
      get_exponential_take_step d k magnus_order expm_func
        = some (fun generator t0 y h => P generator t0 h * y)) ∧
    (∀ (generator : ℝ → Matrix (Fin d) (Fin d) ℂ) (t h : ℝ) (y : Matrix (Fin d) (Fin k) ℂ),
      RK4_parallel_take_step generator t h * y
        = RK4_take_step (fun s (z : Matrix (Fin d) (Fin k) ℂ) => generator s * z) t y h) := by
  constructor
  · intro magnus_order expm_func P hP
    rw [get_exponential_take_step, hP]
    rfl
  · intro generator t h y
    simp only [RK4_parallel_take_step, RK4_take_step]
    simp only [Matrix.add_mul, Matrix.mul_add, Matrix.one_mul, Matrix.mul_one,
      Matrix.mul_assoc, Matrix.smul_mul, Matrix.mul_smul, smul_add, smul_smul,
      add_mul, mul_add, one_mul, mul_one]

/-- Witness for C6: the Magnus part applied at order 1 with the identity in place of
`expm`. -/
theorem propagator_only_consistency_witness :
    get_exponential_propagator 1 1 id
      = some (fun generator t0 h => id (h • generator (t0 + h / 2))) ∧
    get_exponential_take_step 1 1 1 id
      = some (fun generator t0 (y : Matrix (Fin 1) (Fin 1) ℂ) h =>
          (fun (generator : ℝ → Matrix (Fin 1) (Fin 1) ℂ) (t0 h : ℝ) =>
            id (h • generator (t0 + h / 2))) generator t0 h * y) :=
  ⟨rfl, (propagator_only_consistency (d := 1) (k := 1)).1 1 id
    (fun generator t0 h => id (h • generator (t0 + h / 2))) rfl⟩

/-! ## Matrix-exponential solver entry points (lines 80-108, 247-305) -/

/-- Modelled from the spec: `trim_t_results` (defined in `solver_utils.py`, not among the
provided sources) — the Result Assembler.  With no `t_eval` the trajectory is returned
unchanged; otherwise it is restricted to the requested evaluation points. -/
def trim_t_results {α : Type*} (t_list : List ℚ) (ys : List α)
    (t_eval : Option (List ℚ)) : List α :=
  match t_eval with
  | none => ys
  | some te => ((t_list.zip ys).filter (fun p => decide (p.1 ∈ te))).map (fun p => p.2)

/-- `scipy_expm_solver` (lines 80-108): Magnus exponential rule of the requested order fed
into the sequential template; `expm_func` is the exact matrix exponential.  The rational
grid is cast into the real time axis of the step rules. -/
noncomputable def scipy_expm_solver {d k : ℕ} (generator : ℝ → Matrix (Fin d) (Fin d) ℂ)
    (t_span : ℚ × ℚ) (y0 : Matrix (Fin d) (Fin k) ℂ) (max_dt : ℚ)
    (t_eval : Option (List ℚ)) (magnus_order : ℕ) :
    Option (List (Matrix (Fin d) (Fin k) ℂ)) :=
  (get_exponential_take_step d k magnus_order (NormedSpace.exp ℂ)).map
    (fun take_step =>
      let gr := get_fixed_step_sizes t_span t_eval max_dt
      trim_t_results gr.1
        (fixed_step_solver_template_core take_step generator
          (gr.1.map (fun t => (t : ℝ))) (gr.2.1.map (fun t => (t : ℝ))) gr.2.2 y0)
        t_eval)

/-- `jax_expm_solver` (lines 247-275): the same rule fed into the JAX template. -/
noncomputable def jax_expm_solver {d k : ℕ} (generator : ℝ → Matrix (Fin d) (Fin d) ℂ)
    (t_span : ℚ × ℚ) (y0 : Matrix (Fin d) (Fin k) ℂ) (max_dt : ℚ)
    (t_eval : Option (List ℚ)) (magnus_order : ℕ) :
    Option (List (Matrix (Fin d) (Fin k) ℂ)) :=
  (get_exponential_take_step d k magnus_order (NormedSpace.exp ℂ)).map
    (fun take_step =>
      let gr := get_fixed_step_sizes t_span t_eval max_dt
      trim_t_results gr.1
        (fixed_step_solver_template_jax_core take_step generator
          (gr.1.map (fun t => (t : ℝ))) (gr.2.1.map (fun t => (t : ℝ))) gr.2.2 y0)
        t_eval)

/-- `jax_expm_parallel_solver` (lines 278-305): the propagator-only rule
(`just_propagator = True`) fed into the parallel composer (square-`y0` branch). -/
noncomputable def jax_expm_parallel_solver {d : ℕ}
    (generator : ℝ → Matrix (Fin d) (Fin d) ℂ) (t_span : ℚ × ℚ)
    (y0 : Matrix (Fin d) (Fin d) ℂ) (max_dt : ℚ) (t_eval : Option (List ℚ))
    (magnus_order : ℕ) : Option (List (Matrix (Fin d) (Fin d) ℂ)) :=
  (get_exponential_propagator d magnus_order (NormedSpace.exp ℂ)).map
    (fun take_step =>
      let gr := get_fixed_step_sizes t_span t_eval max_dt
      trim_t_results gr.1
        (parallel_template_square_core take_step generator
          (gr.1.map (fun t => (t : ℝ))) (gr.2.1.map (fun t => (t : ℝ))) gr.2.2 y0)
        t_eval)

/-- C9: Unsupported Magnus order.  For every `magnus_order` outside `{1, 2, 3}` the
matrix-exponential solvers fail before any stepping begins and before the generator is ever
evaluated — the result is the error (`none`) uniformly in the generator, state and grid
arguments — while orders 1, 2 and 3 do not raise this error. -/
theorem unsupported_magnus_order {d k : ℕ} (magnus_order : ℕ) :
    ((magnus_order ≠ 1 ∧ magnus_order ≠ 2 ∧ magnus_order ≠ 3) →
      ∀ (generator : ℝ → Matrix (Fin d) (Fin d) ℂ) (t_span : ℚ × ℚ)
        (y0 : Matrix (Fin d) (Fin k) ℂ) (y0sq : Matrix (Fin d) (Fin d) ℂ)
        (max_dt : ℚ) (t_eval : Option (List ℚ)),
        scipy_expm_solver generator t_span y0 max_dt t_eval magnus_order = none ∧
        jax_expm_solver generator t_span y0 max_dt t_eval magnus_order = none ∧
        jax_expm_parallel_solver generator t_span y0sq max_dt t_eval magnus_order = none) ∧
    ((magnus_order = 1 ∨ magnus_order = 2 ∨ magnus_order = 3) →
      ∀ (generator : ℝ → Matrix (Fin d) (Fin d) ℂ) (t_span : ℚ × ℚ)
        (y0 : Matrix (Fin d) (Fin k) ℂ) (y0sq : Matrix (Fin d) (Fin d) ℂ)
        (max_dt : ℚ) (t_eval : Option (List ℚ)),
        (scipy_expm_solver generator t_span y0 max_dt t_eval magnus_order).isSome ∧
        (jax_expm_solver generator t_span y0 max_dt t_eval magnus_order).isSome ∧
        (jax_expm_parallel_solver generator t_span y0sq max_dt t_eval
          magnus_order).isSome) := by
  constructor
  · rintro ⟨h1, h2, h3⟩ generator t_span y0 y0sq max_dt t_eval
    have hnone : get_exponential_propagator d magnus_order (NormedSpace.exp ℂ) = none := by
      rw [get_exponential_propagator, if_neg h1, if_neg h2, if_neg h3]
    refine ⟨?_, ?_, ?_⟩
    · rw [scipy_expm_solver, get_exponential_take_step, hnone]
      rfl
    · rw [jax_expm_solver, get_exponential_take_step, hnone]
      rfl
    · rw [jax_expm_parallel_solver, hnone]
      rfl
  · rintro horder generator t_span y0 y0sq max_dt t_eval
    have hsome : (get_exponential_propagator d magnus_order (NormedSpace.exp ℂ)).isSome := by
      rcases horder with rfl | rfl | rfl
      · rw [get_exponential_propagator]
        rfl
      · rw [get_exponential_propagator]
        rfl
      · rw [get_exponential_propagator]
        rfl
    obtain ⟨P, hP⟩ := Option.isSome_iff_exists.1 hsome
    refine ⟨?_, ?_, ?_⟩
    · rw [scipy_expm_solver, get_exponential_take_step, hP]
      rfl
    · rw [jax_expm_solver, get_exponential_take_step, hP]
      rfl
    · rw [jax_expm_parallel_solver, hP]
      rfl

/-- Witness for C9 at `magnus_order = 4` (rejected) and `magnus_order = 2` (accepted). -/
theorem unsupported_magnus_order_witness :
    ((4 : ℕ) ≠ 1 ∧ (4 : ℕ) ≠ 2 ∧ (4 : ℕ) ≠ 3) ∧
    scipy_expm_solver (fun _ => (0 : Matrix (Fin 1) (Fin 1) ℂ)) (0, 1)
      (0 : Matrix (Fin 1) (Fin 1) ℂ) 1 none 4 = none ∧
    (scipy_expm_solver (fun _ => (0 : Matrix (Fin 1) (Fin 1) ℂ)) (0, 1)
      (0 : Matrix (Fin 1) (Fin 1) ℂ) 1 none 2).isSome :=
  ⟨⟨by norm_num, by norm_num, by norm_num⟩,
    ((@unsupported_magnus_order 1 1 4).1 ⟨by norm_num, by norm_num, by norm_num⟩
      (fun _ => 0) (0, 1) 0 0 1 none).1,
    ((@unsupported_magnus_order 1 1 2).2 (Or.inr (Or.inl rfl))
      (fun _ => 0) (0, 1) 0 0 1 none).1⟩

/-! ## C8: constant-generator exactness of Magnus order 1 -/

lemma revProd_replicate {M : Type*} [Monoid M] (P : M) :
    ∀ n : ℕ, revProd (List.replicate n P) = P ^ n := by
  intro n
  induction n with
  | zero => simp [revProd_nil]
  | succ n ih => rw [List.replicate_succ, revProd_cons, ih, ← pow_succ]

/-- The Magnus order-1 step with a constant generator: `n` applications of
`expm(h·G)`. -/
lemma innerSteps_exp_const {d k : ℕ} (G : Matrix (Fin d) (Fin d) ℂ) (hr : ℝ) :
    ∀ (n : ℕ) (t : ℝ) (y0 : Matrix (Fin d) (Fin k) ℂ),
      innerSteps (fun gen t (y : Matrix (Fin d) (Fin k) ℂ) h =>
          NormedSpace.exp ℂ (h • gen (t + h / 2)) * y) (fun _ => G) hr n t y0
        = (NormedSpace.exp ℂ (hr • G)) ^ n * y0 := by
  intro n
  induction n with
  | zero =>
    intro t y0
    simp [innerSteps, pow_zero, Matrix.one_mul]
  | succ n ih =>
    intro t y0
    rw [innerSteps, ih (t + hr) _]
    show (NormedSpace.exp ℂ (hr • G)) ^ n * (NormedSpace.exp ℂ (hr • G) * y0) = _
    rw [pow_succ, Matrix.mul_assoc]

/-- For a constant generator, the sequential Magnus order-1 solver telescopes exactly: each
of its `n` sub-steps contributes `expm(h·G)` and the signed step sizes sum to `tf - t0`. -/
lemma magnus1_constant_exact {d k : ℕ} (G : Matrix (Fin d) (Fin d) ℂ) (t0 tf : ℚ)
    (y0 : Matrix (Fin d) (Fin k) ℂ) (max_dt : ℚ) (hmax : 0 < max_dt) :
    scipy_expm_solver (fun _ => G) (t0, tf) y0 max_dt none 1
      = some [y0, NormedSpace.exp ℂ (((tf - t0 : ℚ) : ℝ) • G) * y0] := by
  have hstart : scipy_expm_solver (fun _ => G) (t0, tf) y0 max_dt none 1
      = some [y0, innerSteps
          (fun gen t (y : Matrix (Fin d) (Fin k) ℂ) h =>
            NormedSpace.exp ℂ (h • gen (t + h / 2)) * y)
          (fun _ => G)
          (((tf - t0) / (nStepsFor max_dt (tf - t0) : ℚ) : ℚ) : ℝ)
          (nStepsFor max_dt (tf - t0)) ((t0 : ℚ) : ℝ) y0] := rfl
  rw [hstart, innerSteps_exp_const]
  have hpow : (NormedSpace.exp ℂ
        ((((tf - t0) / (nStepsFor max_dt (tf - t0) : ℚ) : ℚ) : ℝ) • G))
          ^ (nStepsFor max_dt (tf - t0))
      = NormedSpace.exp ℂ (((tf - t0 : ℚ) : ℝ) • G) := by
    rw [← Matrix.exp_nsmul ℂ (nStepsFor max_dt (tf - t0))
      ((((tf - t0) / (nStepsFor max_dt (tf - t0) : ℚ) : ℚ) : ℝ) • G)]
    congr 1
    rw [← Nat.cast_smul_eq_nsmul ℝ, smul_smul]
    congr 1
    have hne : ((nStepsFor max_dt (tf - t0) : ℚ)) ≠ 0 :=
      Nat.cast_ne_zero.2 (Nat.one_le_iff_ne_zero.1 (nStepsFor_pos max_dt (tf - t0)))
    push_cast
    rw [mul_div_cancel₀]
    exact_mod_cast hne
  rw [hpow]

/-- The exponential of the spec's concrete constant generator `G = -iπ·Z`. -/
lemma exp_neg_i_pi_Z :
    NormedSpace.exp ℂ
        ((-((Real.pi : ℂ) * Complex.I)) • Matrix.diagonal (![1, -1] : Fin 2 → ℂ))
      = Matrix.diagonal (![-1, -1] : Fin 2 → ℂ) := by
  have hv : NormedSpace.exp ℂ ((-((Real.pi : ℂ) * Complex.I)) • (![1, -1] : Fin 2 → ℂ))
      = (![-1, -1] : Fin 2 → ℂ) := by
    funext i
    rw [Pi.coe_exp, ← Complex.exp_eq_exp_ℂ]
    fin_cases i
    · show Complex.exp ((-((Real.pi : ℂ) * Complex.I) • (![1, -1] : Fin 2 → ℂ)) 0) = -1
      rw [Pi.smul_apply]
      show Complex.exp (-((Real.pi : ℂ) * Complex.I) • (1 : ℂ)) = -1
      rw [smul_eq_mul, mul_one, Complex.exp_neg, Complex.exp_pi_mul_I]
      norm_num
    · show Complex.exp ((-((Real.pi : ℂ) * Complex.I) • (![1, -1] : Fin 2 → ℂ)) 1) = -1
      rw [Pi.smul_apply]
      show Complex.exp (-((Real.pi : ℂ) * Complex.I) • (-1 : ℂ)) = -1
      rw [smul_eq_mul, mul_neg, mul_one, neg_neg, Complex.exp_pi_mul_I]
  rw [← Matrix.diagonal_smul, Matrix.exp_diagonal, hv]

/-- C8: Constant-generator exactness of Magnus order 1.  For every constant generator
`G(t) = G`, every `t_span = (t0, tf)`, every `y0` and every positive `max_dt`, the
sequential Magnus order-1 solver returns exactly `[y0, expm((tf - t0)·G)·y0]` in exact
arithmetic: each of its steps contributes `expm(h_i·G)` and the signed step sizes
telescope to `tf - t0`.  In particular, for `G = -iπ·Z`, `y0 = [1, 0]` on
`t_span = (0, 1)` with `max_dt = 1/100` the result is `[-1, 0]`. -/
theorem magnus1_constant_generator_exact :
    (∀ (d k : ℕ) (G : Matrix (Fin d) (Fin d) ℂ) (t0 tf : ℚ)
        (y0 : Matrix (Fin d) (Fin k) ℂ) (max_dt : ℚ), 0 < max_dt →
      scipy_expm_solver (fun _ => G) (t0, tf) y0 max_dt none 1
        = some [y0, NormedSpace.exp ℂ (((tf - t0 : ℚ) : ℝ) • G) * y0]) ∧
    scipy_expm_solver
        (fun _ => (-((Real.pi : ℂ) * Complex.I))
          • Matrix.diagonal (![1, -1] : Fin 2 → ℂ))
        (0, 1) (Matrix.of ![![(1 : ℂ)], ![0]]) (1 / 100) none 1
      = some [Matrix.of ![![(1 : ℂ)], ![0]], Matrix.of ![![(-1 : ℂ)], ![0]]] := by
  constructor
  · intro d k G t0 tf y0 max_dt hmax
    exact magnus1_constant_exact G t0 tf y0 max_dt hmax
  · rw [magnus1_constant_exact
      ((-((Real.pi : ℂ) * Complex.I)) • Matrix.diagonal (![1, -1] : Fin 2 → ℂ))
      0 1 (Matrix.of ![![(1 : ℂ)], ![0]]) (1 / 100) (by norm_num)]
    have h1 : (((1 - 0 : ℚ)) : ℝ) = 1 := by norm_num
    rw [h1, one_smul, exp_neg_i_pi_Z]
    have hmul : Matrix.diagonal (![-1, -1] : Fin 2 → ℂ) * Matrix.of ![![(1 : ℂ)], ![0]]
        = Matrix.of ![![(-1 : ℂ)], ![0]] := by
      funext i j
      rw [Matrix.diagonal_mul]
      fin_cases i <;> fin_cases j <;> simp
    rw [hmul]

/-- Witness for C8 at `G = 0`, `t_span = (0, 1)`, `y0 = 1`, `max_dt = 1`. -/
theorem magnus1_constant_generator_exact_witness :
    0 < (1 : ℚ) ∧
    scipy_expm_solver (fun _ => (0 : Matrix (Fin 1) (Fin 1) ℂ)) (0, 1)
        (1 : Matrix (Fin 1) (Fin 1) ℂ) 1 none 1
      = some [(1 : Matrix (Fin 1) (Fin 1) ℂ),
          NormedSpace.exp ℂ (((1 - 0 : ℚ) : ℝ) • (0 : Matrix (Fin 1) (Fin 1) ℂ)) * 1] :=
  ⟨by norm_num,
    magnus1_constant_generator_exact.1 1 1 0 0 1 1 1 (by norm_num)⟩
